import Mathlib

/-!
Verification of the Snake-Bullet-Roguelike simulation core (src/main.py).

The Python source is shallowly embedded: pure helpers become Lean
functions, the per-frame stateful passes become explicit state-passing
functions, Python floats become real numbers, Python ints become `ℤ`/`ℕ`,
and the `while True` rejection-sampling loop and the A* main loop become
fuel-based or well-founded recursions.  Geometry that goes through
`math.hypot` lives over `ℝ` (hence a few noncomputable definitions);
the discrete grid logic (A*, turn legality, snake stepping) is computable.
-/

/-! ## Configuration constants (src/main.py lines 100-111) -/

def RES : ℕ := 800

def SIZE : ℕ := 20

def CELLS : ℕ := RES / SIZE

def SPEED_CELLS : ℕ := 15

def SPEED : ℕ := SPEED_CELLS * SIZE

def INIT_LEN : ℕ := 5

def BULLET_SPEED : ℕ := 700

def BULLET_RADIUS : ℕ := 5

noncomputable def BULLET_FADE_TIME : ℝ := 0.25

noncomputable def ENEMY_REPATH_EVERY : ℝ := 0.25

/-- Grid cells are integer coordinate pairs, as in the Python source. -/
abbrev Cell : Type := ℤ × ℤ

/-- Bounds check `0 <= c < CELLS` on both coordinates, used by
`move_to_cell` (line 204) and `astar` (lines 292-293, 315). -/
def InB (c : Cell) : Prop :=
  0 ≤ c.1 ∧ c.1 < (CELLS : ℤ) ∧ 0 ≤ c.2 ∧ c.2 < (CELLS : ℤ)

instance : DecidablePred InB := fun c =>
  inferInstanceAs (Decidable (0 ≤ c.1 ∧ c.1 < (CELLS : ℤ) ∧ 0 ≤ c.2 ∧ c.2 < (CELLS : ℤ)))

/-! ## Direction / turn logic (src/main.py lines 202-209, 345-346, 369-370) -/

/-- Embedding of `move_to_cell` (lines 202-206): step the head cell by the
direction vector, `none` when the result leaves the grid. -/
def move_to_cell (xc yc dx dy : ℤ) : Option Cell :=
  let nx := xc + dx
  let ny := yc + dy
  if nx < 0 ∨ (CELLS : ℤ) ≤ nx ∨ ny < 0 ∨ (CELLS : ℤ) ≤ ny then none
  else some (nx, ny)

/-- Embedding of `can_turn` (lines 208-209): a turn is legal unless the new
direction is the exact opposite of the current one. -/
def can_turn (current new : ℤ × ℤ) : Prop :=
  ¬(current.1 = -new.1 ∧ current.2 = -new.2)

instance : ∀ c n, Decidable (can_turn c n) := fun c n =>
  inferInstanceAs (Decidable ¬(c.1 = -n.1 ∧ c.2 = -n.2))

/-- Embedding of the KEYDOWN handler guard (lines 345-346): the queued
direction is replaced by the intent `n` only when `n` differs from the
current direction and the turn is legal. -/
def queue_turn (d q n : ℤ × ℤ) : ℤ × ℤ :=
  if n ≠ d ∧ can_turn d n then n else q

/-- Embedding of the queued-direction application at a grid-step boundary
(lines 369-370): the heading becomes the queued direction only when it
differs and the turn is legal. -/
def apply_queued (d q : ℤ × ℤ) : ℤ × ℤ :=
  if q ≠ d ∧ can_turn d q then q else d

/-! ## Trail path trimming (src/main.py lines 211-238) -/

/-- Euclidean norm, the embedding of `math.hypot`. -/
noncomputable def hypot (a b : ℝ) : ℝ := Real.sqrt (a ^ 2 + b ^ 2)

/-- Segment lengths of the polyline, newest segment first: the embedding of
the `dists` list built by the downward loop at lines 216-219. -/
noncomputable def revDists (pts : List (ℝ × ℝ)) : List ℝ :=
  ((pts.zip pts.tail).reverse).map fun pq => hypot (pq.2.1 - pq.1.1) (pq.2.2 - pq.1.2)

open Classical in
/-- Embedding of the scanning loop of `trim_path_to_length`
(lines 220-238): walk the newest-first segment lengths accumulating
`total`; on the first segment where `total + d >= max_len_px`, rebuild the
path from an interpolated tail point.  Returns the path unchanged when the
budget is never reached. -/
noncomputable def trimScan (pts : List (ℝ × ℝ)) (maxLen : ℝ) :
    ℕ → ℝ → List ℝ → List (ℝ × ℝ)
  | _, _, [] => pts
  | idx, total, d :: ds =>
    if maxLen ≤ total + d then
      let keepFrom := pts.length - 1 - idx
      let leftover := maxLen - total
      let p0 := pts.getD keepFrom (0, 0)
      let p1 := pts.getD (keepFrom + 1) (0, 0)
      let seg0 := hypot (p1.1 - p0.1) (p1.2 - p0.2)
      let segLen := if seg0 = 0 then 1 else seg0
      let t := leftover / segLen
      let newTail := (p1.1 + (p0.1 - p1.1) * (1 - t), p1.2 + (p0.2 - p1.2) * (1 - t))
      newTail :: pts.drop (keepFrom + 1)
    else
      trimScan pts maxLen (idx + 1) (total + d) ds

/-- Embedding of `trim_path_to_length` (lines 211-238) as a function from
the old path to the new one (the Python mutates the deque in place). -/
noncomputable def trim_path_to_length (pts : List (ℝ × ℝ)) (maxLen : ℝ) :
    List (ℝ × ℝ) :=
  if pts.length ≤ 1 then pts else trimScan pts maxLen 1 0 (revDists pts)

/-- Cumulative polyline length of a point list. -/
noncomputable def polylineLength (pts : List (ℝ × ℝ)) : ℝ :=
  (((pts.zip pts.tail)).map fun pq => hypot (pq.2.1 - pq.1.1) (pq.2.2 - pq.1.2)).sum

/-! ## A* pathfinding (src/main.py lines 288-323) -/

/-- Grid cells carrying their bounds proof.  Every triple that reaches the
A* heap has an in-bounds cell: the start is bounds-checked on entry
(lines 292-293) and neighbours are bounds-checked before being pushed
(line 315), so the bound is attached to the heap entry type. -/
abbrev GCell : Type := { c : Cell // InB c }

/-- A heap triple `(f, g, (cx, cy))` as pushed by the Python code. -/
structure Ent where
  f : ℕ
  gv : ℕ
  cell : GCell

/-- Lexicographic order on integer pairs, as Python compares tuples. -/
def cellLe (a b : Cell) : Prop :=
  a.1 < b.1 ∨ (a.1 = b.1 ∧ a.2 ≤ b.2)

instance : ∀ a b, Decidable (cellLe a b) := fun a b =>
  inferInstanceAs (Decidable (a.1 < b.1 ∨ (a.1 = b.1 ∧ a.2 ≤ b.2)))

/-- Lexicographic order on heap triples, as Python's `heapq` compares the
pushed `(f, g, cell)` tuples. -/
def entLe (a b : Ent) : Prop :=
  a.f < b.f ∨ (a.f = b.f ∧ (a.gv < b.gv ∨ (a.gv = b.gv ∧ cellLe a.cell.val b.cell.val)))

instance : ∀ a b, Decidable (entLe a b) := fun a b =>
  inferInstanceAs (Decidable
    (a.f < b.f ∨ (a.f = b.f ∧ (a.gv < b.gv ∨ (a.gv = b.gv ∧ cellLe a.cell.val b.cell.val)))))

/-- Extract a minimal element (the heap is modelled as the multiset of its
entries; `heapq.heappop` returns a smallest tuple and leaves the rest). -/
def popMin : List Ent → Option (Ent × List Ent)
  | [] => none
  | e :: es =>
    match popMin es with
    | none => some (e, [])
    | some (m, rest) => if entLe e m then some (e, es) else some (m, e :: rest)

/-- Association-list lookup, the embedding of Python dict access for the
`g` and `came` dicts (updates are modelled by consing, which shadows). -/
def alookup {β : Type} : List (Cell × β) → Cell → Option β
  | [], _ => none
  | (k, v) :: l, c => if c = k then some v else alookup l c

/-- Manhattan-distance heuristic `h` of `astar` (line 295). -/
def manh (goal c : Cell) : ℕ :=
  (c.1 - goal.1).natAbs + (c.2 - goal.2).natAbs

/-- The four neighbour offsets of the expansion loop (line 313). -/
def nbrOffsets : List (ℤ × ℤ) := [(1, 0), (-1, 0), (0, 1), (0, -1)]

/-- Search state of the `astar` while-loop: heap, parent map, tentative
cost map, closed set. -/
structure AState where
  openh : List Ent
  came : List (Cell × Cell)
  g : List (Cell × ℕ)
  visited : Finset Cell

/-- One neighbour relaxation of the expansion loop (lines 313-322): bounds
check, blocked check with the goal exception, and the `ng < g.get(n, 1e9)`
improvement test guarding the `g`/`came` update and the heap push. -/
def relaxOne (goal : Cell) (blocked : Finset Cell) (gc : ℕ) (u : Cell)
    (s : AState) (d : ℤ × ℤ) : AState :=
  let n : Cell := (u.1 + d.1, u.2 + d.2)
  if hb : InB n then
    if n ∈ blocked ∧ n ≠ goal then s
    else
      let ng := gc + 1
      if ng < ((alookup s.g n).getD 1000000000) then
        { openh := ⟨ng + manh goal n, ng, ⟨n, hb⟩⟩ :: s.openh,
          came := (n, u) :: s.came,
          g := (n, ng) :: s.g,
          visited := s.visited }
      else s
  else s

/-- All four neighbour relaxations of one expansion. -/
def relaxAll (goal : Cell) (blocked : Finset Cell) (gc : ℕ) (u : Cell)
    (s : AState) : AState :=
  nbrOffsets.foldl (relaxOne goal blocked gc u) s

/-- Path reconstruction (lines 307-311): follow the `came` parent map from
the popped goal cell; the Python `while` loop is given the fuel
`came.length`, which the invariants prove sufficient. -/
def walkCame (came : List (Cell × Cell)) : ℕ → Cell → List Cell
  | 0, c => [c]
  | fuel + 1, c =>
    match alookup came c with
    | none => [c]
    | some p => c :: walkCame came fuel p

/-- The grid as a finite set, for measures and cardinality bounds. -/
def gridFinset : Finset Cell :=
  Finset.Icc 0 ((CELLS : ℤ) - 1) ×ˢ Finset.Icc 0 ((CELLS : ℤ) - 1)

/-- Loop variant for the `astar` while-loop: settling a cell pays five, a
stale pop pays one. -/
def ameasure (s : AState) : ℕ :=
  5 * (gridFinset \ s.visited).card + s.openh.length

/-- The `astar` while-loop (lines 301-322), embedded with explicit fuel
(the initial fuel chosen in `astar` strictly exceeds the loop variant
`ameasure`, so the fuel-exhaustion branch returning `[]` is unreachable).
Pops a minimal triple, skips closed cells, returns the reconstructed path
on reaching the goal, otherwise relaxes the four neighbours. -/
def aloopFuel (start goal : Cell) (blocked : Finset Cell) :
    ℕ → AState → List Cell
  | 0, _ => []
  | fuel + 1, s =>
    match popMin s.openh with
    | none => [start]
    | some (e, rest) =>
      if e.cell.val ∈ s.visited then
        aloopFuel start goal blocked fuel { s with openh := rest }
      else if e.cell.val = goal then
        (walkCame s.came s.came.length goal).reverse
      else
        aloopFuel start goal blocked fuel
          (relaxAll goal blocked e.gv e.cell.val
            { openh := rest, came := s.came, g := s.g,
              visited := insert e.cell.val s.visited })

/-- Embedding of `astar` (lines 288-323): bounds checks returning `[]`,
then the search from the singleton heap `[(h(start), 0, start)]` with
`g = {start: 0}`.  When the heap drains without reaching the goal the
loop returns `[start]`. -/
def astar (start goal : Cell) (blocked : Finset Cell) : List Cell :=
  if hs : InB start then
    if InB goal then
      aloopFuel start goal blocked (5 * gridFinset.card + 2)
        { openh := [⟨manh goal start, 0, ⟨start, hs⟩⟩],
          came := [], g := [(start, 0)], visited := ∅ }
    else []
  else []

/-! ## Specification-side path predicates for A* -/

/-- Four-adjacency of grid cells. -/
def Nbr (a b : Cell) : Prop :=
  b = (a.1 + 1, a.2) ∨ b = (a.1 - 1, a.2) ∨ b = (a.1, a.2 + 1) ∨ b = (a.1, a.2 - 1)

instance : ∀ a b, Decidable (Nbr a b) := fun a b =>
  inferInstanceAs (Decidable
    (b = (a.1 + 1, a.2) ∨ b = (a.1 - 1, a.2) ∨ b = (a.1, a.2 + 1) ∨ b = (a.1, a.2 - 1)))

/-- A legal move of the search graph: 4-adjacent, in bounds, and not
blocked unless it is the goal (the goal is always traversable,
line 316). -/
def stepOK (goal : Cell) (blocked : Finset Cell) (a b : Cell) : Prop :=
  Nbr a b ∧ InB b ∧ (b ∉ blocked ∨ b = goal)

instance : ∀ g bl a b, Decidable (stepOK g bl a b) := fun g bl a b =>
  inferInstanceAs (Decidable (Nbr a b ∧ InB b ∧ (b ∉ bl ∨ b = g)))

/-- A walk of legal moves from `a` to `c` through the successive cells
`vs` (so `vs.length` edges). -/
def Walk (goal : Cell) (blocked : Finset Cell) : Cell → Cell → List Cell → Prop
  | a, c, [] => a = c
  | a, c, v :: vs => stepOK goal blocked a v ∧ Walk goal blocked v c vs

instance instDecWalk : ∀ (g : Cell) (bl : Finset Cell) (vs : List Cell)
    (a c : Cell), Decidable (Walk g bl a c vs)
  | _, _, [], a, c => inferInstanceAs (Decidable (a = c))
  | g, bl, v :: vs, a, c =>
    have : Decidable (Walk g bl v c vs) := instDecWalk g bl vs v c
    inferInstanceAs (Decidable (stepOK g bl a v ∧ Walk g bl v c vs))

/-- The claim-facing path shape: first element `start`, last element
`goal`, consecutive elements legal moves. -/
def ValidPath (start goal : Cell) (blocked : Finset Cell) (p : List Cell) : Prop :=
  p.head? = some start ∧ p.getLast? = some goal ∧
    List.Chain' (stepOK goal blocked) p

instance : ∀ (s g : Cell) (bl : Finset Cell) (p : List Cell),
    Decidable (ValidPath s g bl p) := fun s g bl p =>
  inferInstanceAs (Decidable
    (p.head? = some s ∧ p.getLast? = some g ∧ List.Chain' (stepOK g bl) p))

/-- Cost-`n` reachability of `c` from `start` (a walk with `n` edges). -/
def ReachN (start goal : Cell) (blocked : Finset Cell) (c : Cell) (n : ℕ) : Prop :=
  ∃ vs, Walk goal blocked start c vs ∧ vs.length = n

/-- `d` is the exact shortest-walk edge count from `start` to `c`. -/
def IsDist (start goal : Cell) (blocked : Finset Cell) (c : Cell) (d : ℕ) : Prop :=
  ReachN start goal blocked c d ∧ ∀ m, ReachN start goal blocked c m → d ≤ m

/-- Frontier condition: when `v` is a legal unsettled successor of a
settled cell of exact distance `du`, the tentative map holds a value for
`v` of at most `du + 1`. -/
def frontCond (goal : Cell) (blocked : Finset Cell) (du : ℕ)
    (s : AState) (u v : Cell) : Prop :=
  stepOK goal blocked u v → v ∉ s.visited →
    ∃ dv, alookup s.g v = some dv ∧ dv ≤ du + 1

/-- The search-loop invariant of the embedded `astar`, adapted from the
classical Dijkstra/A* argument: settled cells carry exact distances, every
heap triple is witnessed by an actual walk and keyed by its cost plus the
heuristic, every unsettled tentative value has a live heap triple, settled
cells expose their unsettled successors in the tentative map, and the
parent map reconstructs shortest walks back to `start`. -/
structure AInv (start goal : Cell) (blocked : Finset Cell) (s : AState) : Prop where
  vis_exact : ∀ u ∈ s.visited,
    ∃ du, alookup s.g u = some du ∧ IsDist start goal blocked u du
  ent_reach : ∀ e ∈ s.openh,
    ReachN start goal blocked e.cell.val e.gv ∧ e.f = e.gv + manh goal e.cell.val
  ent_g : ∀ e ∈ s.openh, ∃ d, alookup s.g e.cell.val = some d ∧ d ≤ e.gv
  tent : ∀ v dv, v ∉ s.visited → alookup s.g v = some dv →
    ∃ hb : InB v, (⟨dv + manh goal v, dv, ⟨v, hb⟩⟩ : Ent) ∈ s.openh
  frontier : ∀ u du, u ∈ s.visited → IsDist start goal blocked u du →
    ∀ v, frontCond goal blocked du s u v
  came_ok : ∀ v p, alookup s.came v = some p →
    p ∈ s.visited ∧ stepOK goal blocked p v ∧
      ∃ dp, IsDist start goal blocked p dp ∧ alookup s.g v = some (dp + 1)
  start_g : alookup s.g start = some 0
  g_came : ∀ v dv, alookup s.g v = some dv → v ≠ start →
    ∃ p, alookup s.came v = some p

/-- The invariant during the four-neighbour relaxation of a freshly
settled cell `u`: all of `AInv` except that the frontier condition is only
required of previously settled cells (it is established for `u` offset by
offset as the fold proceeds). -/
structure AInvCore (start goal : Cell) (blocked : Finset Cell) (u : Cell)
    (s : AState) : Prop where
  vis_exact : ∀ w ∈ s.visited,
    ∃ dw, alookup s.g w = some dw ∧ IsDist start goal blocked w dw
  ent_reach : ∀ e ∈ s.openh,
    ReachN start goal blocked e.cell.val e.gv ∧ e.f = e.gv + manh goal e.cell.val
  ent_g : ∀ e ∈ s.openh, ∃ d, alookup s.g e.cell.val = some d ∧ d ≤ e.gv
  tent : ∀ v dv, v ∉ s.visited → alookup s.g v = some dv →
    ∃ hb : InB v, (⟨dv + manh goal v, dv, ⟨v, hb⟩⟩ : Ent) ∈ s.openh
  frontier_ne : ∀ w dw, w ∈ s.visited → w ≠ u → IsDist start goal blocked w dw →
    ∀ v, frontCond goal blocked dw s w v
  came_ok : ∀ v p, alookup s.came v = some p →
    p ∈ s.visited ∧ stepOK goal blocked p v ∧
      ∃ dp, IsDist start goal blocked p dp ∧ alookup s.g v = some (dp + 1)
  start_g : alookup s.g start = some 0
  g_came : ∀ v dv, alookup s.g v = some dv → v ≠ start →
    ∃ p, alookup s.came v = some p

/-! ## Projectile creation (src/main.py lines 347-361) -/

open Classical in
/-- Embedding of the fire handler (lines 349-353): aim vector from the head
center `(hx, hy)` to the mouse `(mx, my)`, divisor `hypot` with the
`or 1.0` fallback, scaled by `BULLET_SPEED`. -/
noncomputable def fireVelocity (hx hy mx my : ℝ) : ℝ × ℝ :=
  let vx := mx - hx
  let vy := my - hy
  let d0 := hypot vx vy
  let d := if d0 = 0 then 1 else d0
  (vx / d * BULLET_SPEED, vy / d * BULLET_SPEED)

/-! ## Rectangles and collision primitives (pygame.Rect semantics) -/

/-- Python `int()` truncation toward zero. -/
noncomputable def pytrunc (x : ℝ) : ℤ :=
  if 0 ≤ x then ⌊x⌋ else -⌊-x⌋

/-- An integer rectangle as built by `pygame.Rect`. -/
structure RectZ where
  left : ℤ
  top : ℤ
  w : ℤ
  h : ℤ

/-- Containment test of `Rect.collidepoint`: left/top edges inclusive,
right/bottom exclusive. -/
def collidepoint (r : RectZ) (px py : ℝ) : Prop :=
  (r.left : ℝ) ≤ px ∧ px < r.left + r.w ∧ (r.top : ℝ) ≤ py ∧ py < r.top + r.h

/-- Overlap test of `Rect.colliderect` (strict inequalities on all four
sides, as pygame implements it). -/
def colliderect (a b : RectZ) : Prop :=
  a.left < b.left + b.w ∧ a.top < b.top + b.h ∧
    b.left < a.left + a.w ∧ b.top < a.top + a.h

/-- Embedding of `head_rect` (lines 273-274) from the head pixel
position. -/
noncomputable def head_rect (x y : ℝ) : RectZ :=
  { left := pytrunc (x + 2), top := pytrunc (y + 2),
    w := (SIZE : ℤ) - 4, h := (SIZE : ℤ) - 4 }

/-! ## Enemies (src/main.py lines 147-196) -/

/-- The three enemy archetypes `(hp, speed in cells/s)` of `Enemy.TYPES`
(lines 149-153); the colour component is rendering-only and dropped. -/
def enemyTypes : List (ℤ × ℕ) := [(1, 15), (3, 5), (15, 2)]

/-- Mutable enemy state (`Enemy.__init__`, lines 154-165; the name and
colour fields are rendering-only and dropped). -/
structure EnemyS where
  hp : ℤ
  speed_px : ℝ
  size : ℤ
  cell : Cell
  pos : ℝ × ℝ
  path : List Cell
  next_idx : ℕ
  repath_timer : ℝ

/-- Embedding of `Enemy.__init__` (lines 154-165). -/
noncomputable def mkEnemy (kind : ℕ) (cell : Cell) : EnemyS :=
  let t := enemyTypes.getD kind (1, 15)
  { hp := t.1,
    speed_px := ((t.2 * SIZE : ℕ) : ℝ),
    size := (SIZE : ℤ) - 2,
    cell := cell,
    pos := ((cell.1 : ℝ) * SIZE + (SIZE : ℝ) / 2, (cell.2 : ℝ) * SIZE + (SIZE : ℝ) / 2),
    path := [],
    next_idx := 0,
    repath_timer := 0 }

noncomputable instance : Inhabited EnemyS := ⟨mkEnemy 0 (0, 0)⟩

/-- Embedding of `Enemy.rect` (lines 167-169). -/
noncomputable def enemyRect (e : EnemyS) : RectZ :=
  { left := pytrunc (e.pos.1 - (e.size : ℝ) / 2),
    top := pytrunc (e.pos.2 - (e.size : ℝ) / 2),
    w := e.size, h := e.size }

open Classical in
/-- First half of `Enemy.update` (lines 173-178): decrement the repath
timer; when it expires or the path is empty, replan via `astar` from the
current cell to the target, point the node index past the start when the
path has more than one cell, and reset the timer. -/
noncomputable def enemyReplan (dt : ℝ) (targetCell : Cell)
    (blockedCells : Finset Cell) (e : EnemyS) : EnemyS :=
  let timer0 := e.repath_timer - dt
  if timer0 ≤ 0 ∨ e.path = [] then
    let p := astar e.cell targetCell blockedCells
    { e with path := p,
             next_idx := if 1 < p.length then 1 else 0,
             repath_timer := ENEMY_REPATH_EVERY }
  else
    { e with repath_timer := timer0 }

open Classical in
/-- Second half of `Enemy.update` (lines 181-196): move toward the pixel
centre of the targeted path node; when the frame's travel distance covers
the remaining distance, snap exactly to it, adopt it as the current cell
and advance the index. -/
noncomputable def enemyMove (dt : ℝ) (e : EnemyS) : EnemyS :=
  if hidx : e.next_idx < e.path.length then
    let nxt := e.path.get ⟨e.next_idx, hidx⟩
    let tx := (nxt.1 : ℝ) * SIZE + (SIZE : ℝ) / 2
    let ty := (nxt.2 : ℝ) * SIZE + (SIZE : ℝ) / 2
    let dx := tx - e.pos.1
    let dy := ty - e.pos.2
    let dist := hypot dx dy
    if dist > 1e-6 then
      let step := e.speed_px * dt
      if step ≥ dist then
        { e with pos := (tx, ty), cell := nxt, next_idx := e.next_idx + 1 }
      else
        { e with pos := (e.pos.1 + dx / dist * step, e.pos.2 + dy / dist * step) }
    else e
  else e

/-- Embedding of `Enemy.update` (lines 171-196): the replan phase followed
by the movement phase, exactly as the method body runs them in sequence. -/
noncomputable def enemyUpdate (dt : ℝ) (targetCell : Cell)
    (blockedCells : Finset Cell) (e : EnemyS) : EnemyS :=
  enemyMove dt (enemyReplan dt targetCell blockedCells e)

/-! ## Bullets and the combat pass (src/main.py lines 144, 354-361, 407-419, 433-452) -/

/-- A projectile record (line 144). -/
structure Bullet where
  pos : ℝ × ℝ
  vel : ℝ × ℝ
  r : ℝ
  hit : Bool
  t_hit : ℝ
  alpha : ℤ

open Classical in
/-- Embedding of the per-bullet update (lines 408-419): unhit bullets
translate and are culled outside the extended margin; hit bullets run the
fade animation and are culled when the fade timer expires.  `none` means
the bullet is removed. -/
noncomputable def bulletKinematics (dt : ℝ) (b : Bullet) : Option Bullet :=
  if b.hit = false then
    let p1 : ℝ × ℝ := (b.pos.1 + b.vel.1 * dt, b.pos.2 + b.vel.2 * dt)
    if p1.1 < -50 ∨ (RES : ℝ) + 50 < p1.1 ∨ p1.2 < -50 ∨ (RES : ℝ) + 50 < p1.2 then
      none
    else some { b with pos := p1 }
  else
    let t1 := b.t_hit + dt
    let b1 : Bullet :=
      { b with t_hit := t1,
               r := (BULLET_RADIUS : ℝ) * (1 + 0.6 * (t1 / BULLET_FADE_TIME)),
               alpha := max 0 (pytrunc ((255 : ℝ) * (1 - t1 / BULLET_FADE_TIME))) }
    if BULLET_FADE_TIME ≤ t1 then none else some b1

open Classical in
/-- Index of the first enemy whose footprint contains the point, the order
in which the inner loop at lines 436-437 scans the live enemy list. -/
noncomputable def firstHitIdx (es : List EnemyS) (px py : ℝ) : Option ℕ :=
  match es with
  | [] => none
  | e :: rest =>
    if collidepoint (enemyRect e) px py then some 0
    else (firstHitIdx rest px py).map (· + 1)

open Classical in
/-- Embedding of the inner bullet-versus-enemies scan (lines 433-445) for
one bullet: already-hit bullets are skipped; otherwise the first containing
enemy loses one hp and is removed immediately when its hp reaches zero, and
the bullet is marked hit (velocity zeroed, fade state reset). -/
noncomputable def bulletStep (es : List EnemyS) (b : Bullet) : List EnemyS × Bullet :=
  if b.hit then (es, b)
  else
    match firstHitIdx es b.pos.1 b.pos.2 with
    | none => (es, b)
    | some i =>
      let e := es.getD i default
      let e1 : EnemyS := { e with hp := e.hp - 1 }
      let es1 := if e1.hp ≤ 0 then es.eraseIdx i else es.set i e1
      (es1, { b with hit := true, vel := (0, 0), alpha := 255, t_hit := 0 })

/-- Embedding of the full bullet-versus-enemies pass (lines 433-445):
bullets are processed in list order, each against the enemy list as left by
the previous bullet. -/
noncomputable def combatPass (bs : List Bullet) (es : List EnemyS) :
    List Bullet × List EnemyS :=
  match bs with
  | [] => ([], es)
  | b :: rest =>
    let r1 := bulletStep es b
    let r2 := combatPass rest r1.1
    (r1.2 :: r2.1, r2.2)

/-- Embedding of the enemies-versus-head check (lines 447-452), run on the
enemy list as left by the combat pass. -/
def headContact (es : List EnemyS) (headR : RectZ) : Prop :=
  ∃ e ∈ es, colliderect (enemyRect e) headR

/-- The combat-then-head-check phase of one frame, in the order of the
main loop (lines 433-452): projectile collisions first, then the head
contact test against the surviving enemies. -/
noncomputable def resolveFrame (bs : List Bullet) (es : List EnemyS)
    (headR : RectZ) : (List Bullet × List EnemyS) × Prop :=
  let r := combatPass bs es
  (r, headContact r.2 headR)

open Classical in
/-- Whether an unhit bullet at the given position scores a hit against the
given enemy list (the decision made by lines 433-437). -/
noncomputable def bulletFired (es : List EnemyS) (px py : ℝ) (hit : Bool) : Bool :=
  !hit && (firstHitIdx es px py).isSome

open Classical in
/-- Lifetime hit count of one projectile: each frame presents the current
enemy list and the bullet's current position; the hit flag threads exactly
as lines 433-445 thread it (set on the first containment, then skipped). -/
noncomputable def lifetimeHits : Bool → List (List EnemyS × ℝ × ℝ) → ℕ
  | _, [] => 0
  | hit, (es, px, py) :: rest =>
    (if bulletFired es px py hit then 1 else 0) +
      lifetimeHits (hit || bulletFired es px py hit) rest

/-! ## Snake state and discrete stepping (src/main.py lines 117-139, 363-395) -/

/-- The module-level snake state (lines 117-139) relevant to the discrete
step loop. -/
structure SnakeS where
  grid : Cell
  dir : ℤ × ℤ
  queued : ℤ × ℤ
  progress : ℝ
  body : List Cell
  length_cells : ℕ
  score : ℕ
  apple : Cell
  game_over : Bool

/-- Initial snake state (lines 118-139); `r1, r2` are the two `randrange`
draws for the initial apple, reduced mod `CELLS` exactly as `randrange`
bounds them.  The initial apple is sampled with no exclusion (line 136). -/
noncomputable def initSnake (r1 r2 : ℕ) : SnakeS :=
  { grid := ((CELLS : ℤ) / 2, (CELLS : ℤ) / 2),
    dir := (1, 0),
    queued := (1, 0),
    progress := 0,
    body := [((CELLS : ℤ) / 2, (CELLS : ℤ) / 2)],
    length_cells := INIT_LEN,
    score := 0,
    apple := (((r1 % CELLS : ℕ) : ℤ), ((r2 % CELLS : ℕ) : ℤ)),
    game_over := false }

/-- Embedding of the apple-relocation rejection loop (lines 393-395): draw
pairs from the stream `rng` until one lands off the body; the unbounded
`while True` is given explicit fuel, `none` meaning it has not terminated
within the fuel. -/
def relocApple (body : List Cell) (rng : ℕ → ℕ × ℕ) : ℕ → ℕ → Option Cell
  | 0, _ => none
  | fuel + 1, i =>
    let a : Cell := ((((rng i).1 % CELLS : ℕ) : ℤ), (((rng i).2 % CELLS : ℕ) : ℤ))
    if a ∈ body then relocApple body rng fuel (i + 1) else some a

/-- One iteration of the discrete-step loop body (lines 367-395): consume
1.0 of progress, apply the queued turn, move the head cell (out of bounds
or self-intersection set `game_over`), append and trim the body, and on
apple consumption bump `length_cells` and `score` together and relocate
the apple off the body.  `none` only when the relocation loop exhausts its
fuel. -/
noncomputable def stepSnake (rng : ℕ → ℕ × ℕ) (fuel : ℕ) (s : SnakeS) :
    Option SnakeS :=
  let progress1 := s.progress - 1
  let dir1 := apply_queued s.dir s.queued
  match move_to_cell s.grid.1 s.grid.2 dir1.1 dir1.2 with
  | none => some { s with progress := progress1, dir := dir1, game_over := true }
  | some nc =>
    if nc ∈ s.body then
      some { s with progress := progress1, dir := dir1, grid := nc, game_over := true }
    else
      let body1 := s.body ++ [nc]
      let body2 := body1.drop (body1.length - s.length_cells)
      if nc = s.apple then
        match relocApple body2 rng fuel 0 with
        | none => none
        | some a =>
          some { s with progress := progress1, dir := dir1, grid := nc,
                        body := body2, length_cells := s.length_cells + 1,
                        score := s.score + 1, apple := a }
      else
        some { s with progress := progress1, dir := dir1, grid := nc, body := body2 }

/-! # Theorems -/

/-! ## Evaluation lemmas for `hypot` -/

/-- Helper: `hypot` of a horizontal displacement of nonnegative length. -/
theorem hypot_horiz (a : ℝ) (ha : 0 ≤ a) : hypot a 0 = a := by
  unfold hypot
  rw [show a ^ 2 + (0 : ℝ) ^ 2 = a ^ 2 by ring]
  exact Real.sqrt_sq ha

/-- Helper: `hypot 0 0 = 0`. -/
theorem hypot_zero : hypot 0 0 = 0 := by
  simpa using hypot_horiz 0 le_rfl

/-- Helper: `hypot` is nonnegative. -/
theorem hypot_nonneg (a b : ℝ) : 0 ≤ hypot a b := Real.sqrt_nonneg _

/-! ## C8: turn legality -/

/-- Helper: `can_turn` rejects the exact reversal. -/
theorem can_turn_reverse (d : ℤ × ℤ) : ¬ can_turn d (-d.1, -d.2) := by
  unfold can_turn
  simp

/-! ## C1: trail trim -/

/-- C1 (code bug): the trim is not exact and the kept length can exceed
the budget.  On the two-point path `[(0,0), (100,0)]` with budget 30 the
kept path is `[(30,0), (100,0)]` of polyline length 70; on the
game-scaled path of five 30-pixel segments with budget 100 the kept path
has polyline length 110.  The cut point is placed at distance
`seg_len - leftover` from the newer endpoint instead of `leftover`: the
code interpolates with `1 - t` where the exact trim the spec describes
requires `t`. -/
theorem trim_path_cut_misplaced :
    (trim_path_to_length [((0 : ℝ), 0), (100, 0)] 30 = [(30, 0), (100, 0)] ∧
      polylineLength (trim_path_to_length [((0 : ℝ), 0), (100, 0)] 30) = 70 ∧
      ¬ polylineLength (trim_path_to_length [((0 : ℝ), 0), (100, 0)] 30) ≤ 30) ∧
    (trim_path_to_length
        [((0 : ℝ), (0 : ℝ)), (30, 0), (60, 0), (90, 0), (120, 0), (150, 0)] 100 =
      [(40, 0), (60, 0), (90, 0), (120, 0), (150, 0)] ∧
      polylineLength (trim_path_to_length
        [((0 : ℝ), (0 : ℝ)), (30, 0), (60, 0), (90, 0), (120, 0), (150, 0)] 100) =
        110) := by
  have h100 : hypot (100 : ℝ) 0 = 100 := hypot_horiz 100 (by norm_num)
  have h70 : hypot (70 : ℝ) 0 = 70 := hypot_horiz 70 (by norm_num)
  have h30 : hypot (30 : ℝ) 0 = 30 := hypot_horiz 30 (by norm_num)
  have h20 : hypot (20 : ℝ) 0 = 20 := hypot_horiz 20 (by norm_num)
  have hmain1 : trim_path_to_length [((0 : ℝ), 0), (100, 0)] 30 =
      [(30, 0), (100, 0)] := by
    norm_num [trim_path_to_length, revDists, trimScan, List.getD, h100]
  have hmain2 : trim_path_to_length
      [((0 : ℝ), (0 : ℝ)), (30, 0), (60, 0), (90, 0), (120, 0), (150, 0)] 100 =
      [(40, 0), (60, 0), (90, 0), (120, 0), (150, 0)] := by
    norm_num [trim_path_to_length, revDists, trimScan, List.getD, h30]
  refine ⟨⟨hmain1, ?_, ?_⟩, hmain2, ?_⟩
  · rw [hmain1]
    norm_num [polylineLength, h70]
  · rw [hmain1]
    norm_num [polylineLength, h70]
  · rw [hmain2]
    norm_num [polylineLength, h30, h20]

/-! ## C2: zero-length aim vector -/

/-- C2 (counterexample): firing with the aim point equal to the head center
(the initial head center is `(410, 410)`) produces the zero velocity
vector, contradicting the claim that the velocity is a non-zero vector of
fixed direction and fixed speed. -/
theorem fire_at_head_yields_zero_velocity :
    fireVelocity 410 410 410 410 = (0, 0) := by
  unfold fireVelocity
  norm_num [hypot_zero]

/-- C2 (amended): for every head center, firing with the aim point equal to
the head center raises no division-by-zero — the vanishing divisor is
replaced by `1.0` — but the resulting velocity is the zero vector (the zero
aim offset scaled by `BULLET_SPEED`), not a fixed non-zero fallback
direction. -/
theorem fire_at_head_no_crash_but_zero (hx hy : ℝ) :
    fireVelocity hx hy hx hy = (0, 0) := by
  unfold fireVelocity
  norm_num [hypot_zero]

/-- C8: for every current heading and a queued intent equal to its exact
opposite, the turn-legality check rejects the reversal both at queue time
(the queued direction is left unchanged) and at application time at a
grid-step boundary (the heading is left unchanged). -/
theorem reversal_never_changes_heading (d q : ℤ × ℤ) :
    queue_turn d q (-d.1, -d.2) = q ∧ apply_queued d (-d.1, -d.2) = d := by
  constructor
  · unfold queue_turn
    rw [if_neg]
    rintro ⟨-, hc⟩
    exact can_turn_reverse d hc
  · unfold apply_queued
    rw [if_neg]
    rintro ⟨-, hc⟩
    exact can_turn_reverse d hc

/-! ## C9: length/score coupling -/

/-- C9: `length_cells = INIT_LEN + score` holds initially (the counters
start at `INIT_LEN` and `0`) and is preserved by every discrete step: the
only branch mutating either counter is the apple-consumption branch, which
increments both together. -/
theorem length_cells_eq_init_plus_score :
    (∀ r1 r2, (initSnake r1 r2).length_cells = INIT_LEN + (initSnake r1 r2).score) ∧
    (∀ rng fuel s s', s.length_cells = INIT_LEN + s.score →
      stepSnake rng fuel s = some s' →
      s'.length_cells = INIT_LEN + s'.score) := by
  constructor
  · intro r1 r2
    simp [initSnake]
  · intro rng fuel s s' hinv hstep
    simp only [stepSnake] at hstep
    split at hstep
    · cases hstep
      simpa using hinv
    · split at hstep
      · cases hstep
        simpa using hinv
      · split at hstep
        · split at hstep
          · cases hstep
          · cases hstep
            simp only
            omega
        · cases hstep
          simpa using hinv

/-- C9 witness: a concrete state satisfying the invariant, stepped into the
out-of-bounds terminal branch, still satisfies it. -/
theorem length_cells_eq_init_plus_score_witness :
    stepSnake (fun _ => (0, 0)) 1
        { grid := ((39 : ℤ), 20), dir := (1, 0), queued := (1, 0), progress := 0,
          body := [], length_cells := 5, score := 0, apple := (0, 0),
          game_over := false } =
      some { grid := ((39 : ℤ), 20), dir := (1, 0), queued := (1, 0), progress := 0 - 1,
             body := [], length_cells := 5, score := 0, apple := (0, 0),
             game_over := true } ∧
    (5 : ℕ) = INIT_LEN + 0 := by
  have hstep : stepSnake (fun _ => (0, 0)) 1
      { grid := ((39 : ℤ), 20), dir := (1, 0), queued := (1, 0), progress := 0,
        body := [], length_cells := 5, score := 0, apple := (0, 0),
        game_over := false } =
      some { grid := ((39 : ℤ), 20), dir := (1, 0), queued := (1, 0), progress := 0 - 1,
             body := [], length_cells := 5, score := 0, apple := (0, 0),
             game_over := true } := by
    simp only [stepSnake]
    rw [show apply_queued ((1 : ℤ), (0 : ℤ)) (1, 0) = (1, 0) by simp [apply_queued]]
    rw [show move_to_cell 39 20 1 0 = none by
      simp [move_to_cell, CELLS, RES, SIZE]]
  refine ⟨hstep, ?_⟩
  have := length_cells_eq_init_plus_score.2 (fun _ => (0, 0)) 1
    { grid := ((39 : ℤ), 20), dir := (1, 0), queued := (1, 0), progress := 0,
      body := [], length_cells := 5, score := 0, apple := (0, 0),
      game_over := false }
    { grid := ((39 : ℤ), 20), dir := (1, 0), queued := (1, 0), progress := 0 - 1,
      body := [], length_cells := 5, score := 0, apple := (0, 0),
      game_over := true }
    (by simp [INIT_LEN]) hstep
  exact this

/-! ## C10: apple placement -/

/-- C10: the no-body-overlap guarantee holds only for relocated apples.
The relocation rejection loop never returns a cell of the body, while the
initial apple is drawn with no exclusion: with both initial draws equal to
20 the initial apple coincides with the initial head cell, which is on the
initial body. -/
theorem initial_apple_unconstrained_reloc_constrained :
    ((initSnake 20 20).apple = (initSnake 20 20).grid ∧
      (initSnake 20 20).apple ∈ (initSnake 20 20).body) ∧
    (∀ body rng fuel i a, relocApple body rng fuel i = some a → a ∉ body) := by
  constructor
  · constructor
    · simp [initSnake, CELLS, RES, SIZE]
    · simp [initSnake, CELLS, RES, SIZE]
  · intro body rng fuel
    induction fuel with
    | zero => intro i a h; cases h
    | succ n ih =>
      intro i a h
      simp only [relocApple] at h
      split at h
      · exact ih (i + 1) a h
      · cases h
        assumption

/-- C10 witness: a concrete relocation draw off a concrete body is indeed
not on the body. -/
theorem initial_apple_unconstrained_reloc_constrained_witness :
    ((0 : ℤ), (0 : ℤ)) ∉ [((5 : ℤ), (5 : ℤ))] :=
  initial_apple_unconstrained_reloc_constrained.2 [((5 : ℤ), (5 : ℤ))]
    (fun _ => (0, 0)) 1 0 ((0 : ℤ), (0 : ℤ)) (by decide)

/-! ## A* toolkit: heap order and popMin -/

/-- Helper: `entLe` is reflexive. -/
theorem entLe_refl (a : Ent) : entLe a a := by
  unfold entLe cellLe
  omega

/-- Helper: `entLe` is total. -/
theorem entLe_total (a b : Ent) : entLe a b ∨ entLe b a := by
  unfold entLe cellLe
  omega

/-- Helper: `entLe` is transitive. -/
theorem entLe_trans {a b c : Ent} (h1 : entLe a b) (h2 : entLe b c) : entLe a c := by
  unfold entLe cellLe at h1 h2 ⊢
  omega

/-- Helper: `entLe` compares the `f` keys. -/
theorem entLe_f {a b : Ent} (h : entLe a b) : a.f ≤ b.f := by
  unfold entLe at h
  omega

/-- Helper: `popMin` returns `none` exactly on the empty heap. -/
theorem popMin_eq_none {l : List Ent} : popMin l = none ↔ l = [] := by
  cases l with
  | nil => simp [popMin]
  | cons e es =>
    simp only [popMin]
    cases hes : popMin es with
    | none => simp
    | some p =>
      obtain ⟨m, rest⟩ := p
      by_cases hle : entLe e m <;> simp [hle]

/-- Helper: a pop leaves a permutation of the heap with the popped entry
put back on top. -/
theorem popMin_perm {l : List Ent} {m : Ent} {rest : List Ent}
    (h : popMin l = some (m, rest)) : l.Perm (m :: rest) := by
  induction l generalizing m rest with
  | nil => cases h
  | cons e es ih =>
    simp only [popMin] at h
    cases hes : popMin es with
    | none =>
      rw [hes] at h
      simp only at h
      cases h
      have hnil : es = [] := popMin_eq_none.mp hes
      subst hnil
      exact List.Perm.refl _
    | some p =>
      obtain ⟨m', rest'⟩ := p
      rw [hes] at h
      simp only at h
      by_cases hle : entLe e m'
      · rw [if_pos hle] at h
        cases h
        exact List.Perm.refl _
      · rw [if_neg hle] at h
        cases h
        exact ((ih hes).cons e).trans (List.Perm.swap m e rest')

/-- Helper: the popped entry is a member of the heap. -/
theorem popMin_mem {l : List Ent} {m : Ent} {rest : List Ent}
    (h : popMin l = some (m, rest)) : m ∈ l :=
  (popMin_perm h).mem_iff.mpr (List.mem_cons_self m rest)

/-- Helper: heap members other than the popped entry remain in the rest. -/
theorem popMin_mem_rest {l : List Ent} {m x : Ent} {rest : List Ent}
    (h : popMin l = some (m, rest)) (hx : x ∈ l) (hne : x ≠ m) : x ∈ rest := by
  rcases List.mem_cons.mp ((popMin_perm h).mem_iff.mp hx) with h' | h'
  · exact absurd h' hne
  · exact h'

/-- Helper: the popped entry is minimal in the heap order. -/
theorem popMin_le {l : List Ent} {m : Ent} {rest : List Ent}
    (h : popMin l = some (m, rest)) : ∀ x ∈ l, entLe m x := by
  induction l generalizing m rest with
  | nil => cases h
  | cons e es ih =>
    simp only [popMin] at h
    cases hes : popMin es with
    | none =>
      rw [hes] at h
      simp only at h
      cases h
      have hnil : es = [] := popMin_eq_none.mp hes
      subst hnil
      intro x hx
      rcases List.mem_singleton.mp hx with rfl
      exact entLe_refl _
    | some p =>
      obtain ⟨m', rest'⟩ := p
      rw [hes] at h
      simp only at h
      by_cases hle : entLe e m'
      · rw [if_pos hle] at h
        cases h
        intro x hx
        rcases List.mem_cons.mp hx with rfl | hx'
        · exact entLe_refl _
        · exact entLe_trans hle (ih hes x hx')
      · rw [if_neg hle] at h
        cases h
        intro x hx
        rcases List.mem_cons.mp hx with rfl | hx'
        · rcases entLe_total x m with h' | h'
          · exact absurd h' hle
          · exact h'
        · exact ih hes x hx'

/-! ## A* toolkit: association lists -/

/-- Helper: lookup after a cons, same key. -/
theorem alookup_cons_self {β : Type} {l : List (Cell × β)} {k : Cell} {v : β} :
    alookup ((k, v) :: l) k = some v := by
  simp [alookup]

/-- Helper: lookup after a cons, different key. -/
theorem alookup_cons_ne {β : Type} {l : List (Cell × β)} {k c : Cell} {v : β}
    (h : c ≠ k) : alookup ((k, v) :: l) c = alookup l c := by
  simp [alookup, h]

/-- Helper: a successful lookup means the key occurs in the list. -/
theorem alookup_mem_keys {β : Type} {l : List (Cell × β)} {k : Cell} {v : β}
    (h : alookup l k = some v) : k ∈ l.map Prod.fst := by
  induction l with
  | nil => cases h
  | cons p l ih =>
    obtain ⟨k', v'⟩ := p
    simp only [alookup] at h
    split at h
    · simp [*]
    · simpa using Or.inr (ih h)

/-! ## A* toolkit: walks, distances, heuristic -/

/-- Helper: splitting a walk at a list append. -/
theorem walk_append {goal : Cell} {blocked : Finset Cell} :
    ∀ (xs ys : List Cell) (a c : Cell),
      Walk goal blocked a c (xs ++ ys) ↔
        ∃ b, Walk goal blocked a b xs ∧ Walk goal blocked b c ys := by
  intro xs
  induction xs with
  | nil =>
    intro ys a c
    constructor
    · intro h
      exact ⟨a, rfl, h⟩
    · rintro ⟨b, hb, h⟩
      cases hb
      exact h
  | cons x xs ih =>
    intro ys a c
    constructor
    · rintro ⟨hs, hw⟩
      obtain ⟨b, h1, h2⟩ := (ih ys x c).mp hw
      exact ⟨b, ⟨hs, h1⟩, h2⟩
    · rintro ⟨b, ⟨hs, h1⟩, h2⟩
      exact ⟨hs, (ih ys x c).mpr ⟨b, h1, h2⟩⟩

/-- Helper: extending a reachability witness along one legal move. -/
theorem reach_step {start goal : Cell} {blocked : Finset Cell} {c v : Cell} {n : ℕ}
    (h : ReachN start goal blocked c n) (hs : stepOK goal blocked c v) :
    ReachN start goal blocked v (n + 1) := by
  obtain ⟨vs, hw, hlen⟩ := h
  refine ⟨vs ++ [v], ?_, by simp [hlen]⟩
  exact (walk_append vs [v] start v).mpr ⟨c, hw, hs, rfl⟩

/-- Helper: every cell passed through by a walk is in bounds. -/
theorem walk_cells_inB {goal : Cell} {blocked : Finset Cell} :
    ∀ (vs : List Cell) (a c : Cell), Walk goal blocked a c vs →
      ∀ v ∈ vs, InB v := by
  intro vs
  induction vs with
  | nil => intro a c _ v hv; cases hv
  | cons x xs ih =>
    rintro a c ⟨hs, hw⟩ v hv
    rcases List.mem_cons.mp hv with rfl | hv'
    · exact hs.2.1
    · exact ih x c hw v hv'

/-- Helper: the endpoint of a walk is its start or a passed cell. -/
theorem walk_last_mem {goal : Cell} {blocked : Finset Cell} :
    ∀ (vs : List Cell) (a c : Cell), Walk goal blocked a c vs →
      c = a ∨ c ∈ vs := by
  intro vs
  induction vs with
  | nil =>
    intro a c h
    exact Or.inl h.symm
  | cons x xs ih =>
    rintro a c ⟨-, hw⟩
    rcases ih x c hw with rfl | hc
    · exact Or.inr (List.mem_cons_self _ _)
    · exact Or.inr (List.mem_cons_of_mem _ hc)

/-- Helper: a list that is not duplicate-free splits around a repeated
element. -/
theorem exists_dup_split {l : List Cell} (h : ¬ l.Nodup) :
    ∃ x l1 l2 l3, l = l1 ++ x :: l2 ++ x :: l3 := by
  induction l with
  | nil => exact absurd List.nodup_nil h
  | cons y ys ih =>
    by_cases hy : y ∈ ys
    · obtain ⟨s, t, rfl⟩ := List.append_of_mem hy
      exact ⟨y, [], s, t, by simp⟩
    · have hys : ¬ ys.Nodup := fun hnd => h (List.nodup_cons.mpr ⟨hy, hnd⟩)
      obtain ⟨x, l1, l2, l3, rfl⟩ := ih hys
      exact ⟨x, y :: l1, l2, l3, by simp⟩

/-- Helper: every walk contains a duplicate-free walk between the same
endpoints that is no longer. -/
theorem walk_dedup {goal start c : Cell} {blocked : Finset Cell} :
    ∀ (n : ℕ) (vs : List Cell), vs.length ≤ n →
      Walk goal blocked start c vs →
      ∃ ws, Walk goal blocked start c ws ∧ (start :: ws).Nodup ∧
        ws.length ≤ vs.length := by
  intro n
  induction n with
  | zero =>
    intro vs hlen hw
    rw [List.length_eq_zero.mp (Nat.le_zero.mp hlen)] at hw ⊢
    exact ⟨[], hw, by simp, le_rfl⟩
  | succ n ih =>
    intro vs hlen hw
    by_cases hnd : (start :: vs).Nodup
    · exact ⟨vs, hw, hnd, le_rfl⟩
    · rcases List.nodup_cons.not.mp hnd |> not_and_or.mp with hmem | hdup
      · rw [not_not] at hmem
        obtain ⟨s, t, rfl⟩ := List.append_of_mem hmem
        obtain ⟨b, -, -, hwt⟩ :
            ∃ b, Walk goal blocked start b s ∧ stepOK goal blocked b start ∧
              Walk goal blocked start c t := by
          obtain ⟨b, h1, h2, h3⟩ := (walk_append s (start :: t) start c).mp hw
          exact ⟨b, h1, h2, h3⟩
        obtain ⟨ws, hws, hnd', hlen'⟩ := ih t
          (by simp at hlen ⊢; omega) hwt
        exact ⟨ws, hws, hnd', by simp at hlen ⊢; omega⟩
      · obtain ⟨x, l1, l2, l3, rfl⟩ := exists_dup_split hdup
        obtain ⟨b, hw1, hs1, hrest⟩ :
            ∃ b, Walk goal blocked start b l1 ∧ stepOK goal blocked b x ∧
              Walk goal blocked x c (l2 ++ x :: l3) := by
          obtain ⟨b, h1, h2, h3⟩ :=
            (walk_append l1 (x :: l2 ++ x :: l3) start c).mp
              (by simpa using hw)
          exact ⟨b, h1, h2, h3⟩
        obtain ⟨b2, -, -, hw3⟩ :
            ∃ b2, Walk goal blocked x b2 l2 ∧ stepOK goal blocked b2 x ∧
              Walk goal blocked x c l3 := by
          obtain ⟨b2, h1, h2, h3⟩ := (walk_append l2 (x :: l3) x c).mp hrest
          exact ⟨b2, h1, h2, h3⟩
        have hshort : Walk goal blocked start c (l1 ++ x :: l3) :=
          (walk_append l1 (x :: l3) start c).mpr ⟨b, hw1, hs1, hw3⟩
        obtain ⟨ws, hws, hnd', hlen'⟩ := ih (l1 ++ x :: l3)
          (by simp at hlen ⊢; omega) hshort
        exact ⟨ws, hws, hnd', by simp at hlen' ⊢; omega⟩

/-- Helper: one legal move changes the Manhattan heuristic by at most
one. -/
theorem manh_step (goal : Cell) {a b : Cell} (h : Nbr a b) :
    manh goal a ≤ manh goal b + 1 := by
  unfold manh
  rcases h with h | h | h | h <;> subst h <;> simp <;> omega

/-- Helper: heuristic consistency along a walk — the Manhattan estimate at
the start is at most the walk length plus the estimate at the end. -/
theorem manh_le_walk {goal : Cell} {blocked : Finset Cell} :
    ∀ (vs : List Cell) (a c : Cell), Walk goal blocked a c vs →
      manh goal a ≤ vs.length + manh goal c := by
  intro vs
  induction vs with
  | nil =>
    intro a c h
    cases h
    simp
  | cons v vs ih =>
    rintro a c ⟨hs, hw⟩
    have h1 := manh_step goal hs.1
    have h2 := ih v c hw
    simp only [List.length_cons]
    omega

/-- Helper: a reachable cell has an exact shortest distance. -/
theorem isDist_exists {start goal c : Cell} {blocked : Finset Cell}
    (h : ∃ n, ReachN start goal blocked c n) :
    ∃ d, IsDist start goal blocked c d := by
  obtain ⟨n, hn⟩ := h
  have hn' : n ∈ {m | ReachN start goal blocked c m} := hn
  have hmem := Nat.sInf_mem ⟨n, hn'⟩
  refine ⟨sInf {m | ReachN start goal blocked c m}, hmem, ?_⟩
  intro m hm
  exact Nat.sInf_le hm

/-- Helper: exact distances are unique. -/
theorem isDist_unique {start goal c : Cell} {blocked : Finset Cell} {d d' : ℕ}
    (h : IsDist start goal blocked c d) (h' : IsDist start goal blocked c d') :
    d = d' :=
  le_antisymm (h.2 d' h'.1) (h'.2 d h.1)

/-- Helper: the distance triangle inequality over one legal move. -/
theorem isDist_succ_le {start goal u v : Cell} {blocked : Finset Cell} {du dv : ℕ}
    (hu : IsDist start goal blocked u du) (hv : IsDist start goal blocked v dv)
    (hs : stepOK goal blocked u v) : dv ≤ du + 1 :=
  hv.2 _ (reach_step hu.1 hs)

/-- Helper: the grid has 1600 cells. -/
theorem gridFinset_card : gridFinset.card = 1600 := by
  rw [gridFinset, Finset.card_product, Int.card_Icc]
  norm_num [CELLS, RES, SIZE]
  decide

/-- Helper: membership in the grid finset is the bounds check. -/
theorem mem_gridFinset {c : Cell} : c ∈ gridFinset ↔ InB c := by
  cases c with
  | mk a b =>
    simp only [gridFinset, Finset.mem_product, Finset.mem_Icc, InB]
    omega

/-- Helper: a duplicate-free list of in-bounds cells has at most
`gridFinset.card` elements. -/
theorem nodup_inB_length {l : List Cell} (hnd : l.Nodup)
    (hin : ∀ x ∈ l, InB x) : l.length ≤ gridFinset.card := by
  have h1 : l.toFinset ⊆ gridFinset := by
    intro x hx
    rw [mem_gridFinset]
    exact hin x (List.mem_toFinset.mp hx)
  have h2 := Finset.card_le_card h1
  rwa [List.toFinset_card_of_nodup hnd] at h2

/-- Helper: exact distances are below the grid cardinality (a shortest
walk is duplicate-free). -/
theorem isDist_lt_grid {start goal c : Cell} {blocked : Finset Cell} {d : ℕ}
    (hs : InB start) (h : IsDist start goal blocked c d) :
    d + 1 ≤ gridFinset.card := by
  obtain ⟨⟨vs, hw, hlen⟩, hmin⟩ := h
  obtain ⟨ws, hw', hnd, hle⟩ := walk_dedup vs.length vs le_rfl hw
  have hmin' : d ≤ ws.length := hmin _ ⟨ws, hw', rfl⟩
  have hcard : (start :: ws).length ≤ gridFinset.card := by
    refine nodup_inB_length hnd ?_
    intro x hx
    rcases List.mem_cons.mp hx with rfl | hx'
    · exact hs
    · exact walk_cells_inB ws start c hw' x hx'
  simp only [List.length_cons] at hcard
  omega

/-! ## A* core argument: cover and popped-minimum exactness -/

/-- Helper: following a walk from a settled cell to an unsettled cell, some
heap entry keys below the walk cost plus heuristic slack (the A* analogue
of the Dijkstra frontier-crossing lemma, using consistency of the
Manhattan heuristic). -/
theorem frontier_path {start goal : Cell} {blocked : Finset Cell} {s : AState}
    (inv : AInv start goal blocked s) :
    ∀ (vs : List Cell) (u t : Cell) (du : ℕ),
      Walk goal blocked u t vs → u ∈ s.visited →
      IsDist start goal blocked u du → t ∉ s.visited →
      ∃ e ∈ s.openh, e.f ≤ du + vs.length + manh goal t := by
  intro vs
  induction vs with
  | nil =>
    intro u t du hw hu _ ht
    cases hw
    exact absurd hu ht
  | cons v vs ih =>
    rintro u t du ⟨hstep, hw⟩ hu hdu ht
    by_cases hv : v ∈ s.visited
    · obtain ⟨dv, hgv, hdv⟩ := inv.vis_exact v hv
      have hdvle : dv ≤ du + 1 := isDist_succ_le hdu hdv hstep
      obtain ⟨e, he, hef⟩ := ih v t dv hw hv hdv ht
      refine ⟨e, he, ?_⟩
      simp only [List.length_cons]
      omega
    · have hfc := inv.frontier u du hu hdu v
      unfold frontCond at hfc
      obtain ⟨dv, hgv, hdvle⟩ := hfc hstep hv
      obtain ⟨hb, hent⟩ := inv.tent v dv hv hgv
      refine ⟨⟨dv + manh goal v, dv, ⟨v, hb⟩⟩, hent, ?_⟩
      show dv + manh goal v ≤ du + (v :: vs).length + manh goal t
      have hcons := manh_le_walk vs v t hw
      simp only [List.length_cons]
      omega

/-- Helper: any walk from `start` to an unsettled cell is covered by some
heap entry whose key is at most the walk cost plus the heuristic at the
endpoint. -/
theorem cover_lemma {start goal : Cell} {blocked : Finset Cell} {s : AState}
    (inv : AInv start goal blocked s) :
    ∀ (vs : List Cell) (t : Cell), Walk goal blocked start t vs →
      t ∉ s.visited → ∃ e ∈ s.openh, e.f ≤ vs.length + manh goal t := by
  intro vs t hw ht
  by_cases hstart : start ∈ s.visited
  · have hd0 : IsDist start goal blocked start 0 :=
      ⟨⟨[], rfl, rfl⟩, fun m _ => Nat.zero_le m⟩
    obtain ⟨e, he, hef⟩ := frontier_path inv vs start t 0 hw hstart hd0 ht
    exact ⟨e, he, by omega⟩
  · obtain ⟨hb, hent⟩ := inv.tent start 0 hstart inv.start_g
    refine ⟨⟨0 + manh goal start, 0, ⟨start, hb⟩⟩, hent, ?_⟩
    show 0 + manh goal start ≤ vs.length + manh goal t
    have := manh_le_walk vs start t hw
    omega

/-- Helper: the first pop of an unsettled cell carries its exact shortest
distance as its `g` component. -/
theorem pop_settle_exact {start goal : Cell} {blocked : Finset Cell} {s : AState}
    {e : Ent} {rest : List Ent} (inv : AInv start goal blocked s)
    (hpop : popMin s.openh = some (e, rest)) (hnv : e.cell.val ∉ s.visited) :
    IsDist start goal blocked e.cell.val e.gv := by
  obtain ⟨hreach, hf⟩ := inv.ent_reach e (popMin_mem hpop)
  refine ⟨hreach, ?_⟩
  rintro m ⟨vs, hw, hlen⟩
  obtain ⟨e', he', hef⟩ := cover_lemma inv vs e.cell.val hw hnv
  have hle := entLe_f (popMin_le hpop e' he')
  omega

/-- Helper: at the moment an unsettled cell is popped, its tentative map
value agrees with the popped `g` component. -/
theorem pop_settle_g {start goal : Cell} {blocked : Finset Cell} {s : AState}
    {e : Ent} {rest : List Ent} (inv : AInv start goal blocked s)
    (hpop : popMin s.openh = some (e, rest)) (hnv : e.cell.val ∉ s.visited) :
    alookup s.g e.cell.val = some e.gv := by
  obtain ⟨d, hg, hdle⟩ := inv.ent_g e (popMin_mem hpop)
  obtain ⟨hb, hent⟩ := inv.tent e.cell.val d hnv hg
  have hreach := (inv.ent_reach _ hent).1
  have hexact := pop_settle_exact inv hpop hnv
  have hged : e.gv ≤ d := hexact.2 d hreach
  have hdeq : d = e.gv := le_antisymm hdle hged
  rw [hdeq] at hg
  exact hg

/-! ## A* invariant preservation -/

/-- Helper: popping an already-settled entry preserves the invariant. -/
theorem AInv_skip {start goal : Cell} {blocked : Finset Cell} {s : AState}
    {e : Ent} {rest : List Ent} (inv : AInv start goal blocked s)
    (hpop : popMin s.openh = some (e, rest)) (hv : e.cell.val ∈ s.visited) :
    AInv start goal blocked { s with openh := rest } := by
  refine ⟨inv.vis_exact, ?_, ?_, ?_, inv.frontier, inv.came_ok, inv.start_g,
    inv.g_came⟩
  · intro e' he'
    exact inv.ent_reach e'
      ((popMin_perm hpop).mem_iff.mpr (List.mem_cons_of_mem _ he'))
  · intro e' he'
    exact inv.ent_g e'
      ((popMin_perm hpop).mem_iff.mpr (List.mem_cons_of_mem _ he'))
  · intro v dv hnv hg
    obtain ⟨hb, hent⟩ := inv.tent v dv hnv hg
    refine ⟨hb, popMin_mem_rest hpop hent ?_⟩
    intro heq
    cases heq
    exact hnv hv

/-- Helper: adding a freshly popped unsettled cell to the closed set
yields the relaxation-time invariant (the frontier condition for the new
cell is established afterwards, offset by offset). -/
theorem AInvCore_after_insert {start goal : Cell} {blocked : Finset Cell}
    {s : AState} {e : Ent} {rest : List Ent} (inv : AInv start goal blocked s)
    (hpop : popMin s.openh = some (e, rest)) (hnv : e.cell.val ∉ s.visited) :
    AInvCore start goal blocked e.cell.val
      { openh := rest, came := s.came, g := s.g,
        visited := insert e.cell.val s.visited } := by
  have hexact := pop_settle_exact inv hpop hnv
  have hgv := pop_settle_g inv hpop hnv
  refine ⟨?_, ?_, ?_, ?_, ?_, ?_, inv.start_g, inv.g_came⟩
  · intro w hw
    rcases Finset.mem_insert.mp hw with rfl | hw'
    · exact ⟨e.gv, hgv, hexact⟩
    · exact inv.vis_exact w hw'
  · intro e' he'
    exact inv.ent_reach e'
      ((popMin_perm hpop).mem_iff.mpr (List.mem_cons_of_mem _ he'))
  · intro e' he'
    exact inv.ent_g e'
      ((popMin_perm hpop).mem_iff.mpr (List.mem_cons_of_mem _ he'))
  · intro v dv hnv' hg
    have hvold : v ∉ s.visited := fun h => hnv' (Finset.mem_insert_of_mem h)
    have hvne : v ≠ e.cell.val := fun h => hnv' (h ▸ Finset.mem_insert_self _ _)
    obtain ⟨hb, hent⟩ := inv.tent v dv hvold hg
    refine ⟨hb, popMin_mem_rest hpop hent ?_⟩
    intro heq
    cases heq
    exact hvne rfl
  · intro w dw hw hne hdw v
    have hw' : w ∈ s.visited := by
      rcases Finset.mem_insert.mp hw with rfl | h
      · exact absurd rfl hne
      · exact h
    intro hstep hv'
    have hvnot : v ∉ s.visited := fun h => hv' (Finset.mem_insert_of_mem h)
    have hfc := inv.frontier w dw hw' hdw v
    unfold frontCond at hfc
    exact hfc hstep hvnot
  · intro v p hc
    obtain ⟨hp, hstep, hdp⟩ := inv.came_ok v p hc
    exact ⟨Finset.mem_insert_of_mem hp, hstep, hdp⟩

/-! ## A* relaxation lemmas -/

/-- Helper: adjacency is exactly displacement by one of the four
offsets. -/
theorem nbr_iff_offset {u v : Cell} :
    Nbr u v ↔ ∃ d ∈ nbrOffsets, v = (u.1 + d.1, u.2 + d.2) := by
  unfold Nbr nbrOffsets
  constructor
  · rintro (rfl | rfl | rfl | rfl)
    · exact ⟨(1, 0), by simp, by simp [Prod.ext_iff]⟩
    · exact ⟨(-1, 0), by simp, by simp [Prod.ext_iff, sub_eq_add_neg]⟩
    · exact ⟨(0, 1), by simp, by simp [Prod.ext_iff]⟩
    · exact ⟨(0, -1), by simp, by simp [Prod.ext_iff, sub_eq_add_neg]⟩
  · rintro ⟨d, hd, rfl⟩
    simp only [List.mem_cons, List.not_mem_nil, or_false] at hd
    rcases hd with rfl | rfl | rfl | rfl <;>
      simp [Prod.ext_iff, sub_eq_add_neg]

/-- Helper: relaxation of an out-of-bounds neighbour is the identity. -/
theorem relaxOne_out {goal : Cell} {blocked : Finset Cell} {gc : ℕ} {u : Cell}
    {s : AState} {d : ℤ × ℤ} (h : ¬ InB (u.1 + d.1, u.2 + d.2)) :
    relaxOne goal blocked gc u s d = s := by
  simp only [relaxOne]
  rw [dif_neg h]

/-- Helper: relaxation of a blocked non-goal neighbour is the identity. -/
theorem relaxOne_blocked {goal : Cell} {blocked : Finset Cell} {gc : ℕ} {u : Cell}
    {s : AState} {d : ℤ × ℤ} (hb : InB (u.1 + d.1, u.2 + d.2))
    (h : (u.1 + d.1, u.2 + d.2) ∈ blocked ∧ (u.1 + d.1, u.2 + d.2) ≠ goal) :
    relaxOne goal blocked gc u s d = s := by
  simp only [relaxOne]
  rw [dif_pos hb, if_pos h]

/-- Helper: relaxation without a tentative improvement is the identity. -/
theorem relaxOne_no_improve {goal : Cell} {blocked : Finset Cell} {gc : ℕ}
    {u : Cell} {s : AState} {d : ℤ × ℤ} (hb : InB (u.1 + d.1, u.2 + d.2))
    (h : ¬((u.1 + d.1, u.2 + d.2) ∈ blocked ∧ (u.1 + d.1, u.2 + d.2) ≠ goal))
    (h2 : ¬(gc + 1 < (alookup s.g (u.1 + d.1, u.2 + d.2)).getD 1000000000)) :
    relaxOne goal blocked gc u s d = s := by
  simp only [relaxOne]
  rw [dif_pos hb, if_neg h, if_neg h2]

/-- Helper: relaxation with an improvement pushes the new triple and
updates the `g` and `came` maps. -/
theorem relaxOne_push {goal : Cell} {blocked : Finset Cell} {gc : ℕ} {u : Cell}
    {s : AState} {d : ℤ × ℤ} (hb : InB (u.1 + d.1, u.2 + d.2))
    (h : ¬((u.1 + d.1, u.2 + d.2) ∈ blocked ∧ (u.1 + d.1, u.2 + d.2) ≠ goal))
    (h2 : gc + 1 < (alookup s.g (u.1 + d.1, u.2 + d.2)).getD 1000000000) :
    relaxOne goal blocked gc u s d =
      { openh := ⟨gc + 1 + manh goal (u.1 + d.1, u.2 + d.2), gc + 1,
                  ⟨(u.1 + d.1, u.2 + d.2), hb⟩⟩ :: s.openh,
        came := ((u.1 + d.1, u.2 + d.2), u) :: s.came,
        g := ((u.1 + d.1, u.2 + d.2), gc + 1) :: s.g,
        visited := s.visited } := by
  simp only [relaxOne]
  rw [dif_pos hb, if_neg h, if_pos h2]

/-- Helper: one relaxation of a neighbour of the freshly settled cell `u`
preserves the relaxation-time invariant, leaves the closed set unchanged,
only lowers tentative values, grows the heap by at most one, and
establishes the frontier condition for that neighbour. -/
theorem relaxOne_spec {start goal : Cell} {blocked : Finset Cell} {u : Cell}
    {du : ℕ} {s : AState} (hs : InB start) (d : ℤ × ℤ)
    (hnbr : Nbr u (u.1 + d.1, u.2 + d.2))
    (hcore : AInvCore start goal blocked u s)
    (hu_vis : u ∈ s.visited)
    (hdu : IsDist start goal blocked u du) :
    AInvCore start goal blocked u (relaxOne goal blocked du u s d) ∧
    (relaxOne goal blocked du u s d).visited = s.visited ∧
    (∀ v dv, alookup s.g v = some dv →
      ∃ dv', dv' ≤ dv ∧ alookup (relaxOne goal blocked du u s d).g v = some dv') ∧
    (relaxOne goal blocked du u s d).openh.length ≤ s.openh.length + 1 ∧
    frontCond goal blocked du (relaxOne goal blocked du u s d) u
      (u.1 + d.1, u.2 + d.2) := by
  by_cases hb : InB (u.1 + d.1, u.2 + d.2)
  · by_cases hblk : (u.1 + d.1, u.2 + d.2) ∈ blocked ∧ (u.1 + d.1, u.2 + d.2) ≠ goal
    · rw [relaxOne_blocked hb hblk]
      refine ⟨hcore, rfl, fun v dv h => ⟨dv, le_rfl, h⟩, by omega, ?_⟩
      intro hstep _
      rcases hstep.2.2 with hnb | hgoal
      · exact absurd hblk.1 hnb
      · exact absurd hgoal hblk.2
    · have hstep : stepOK goal blocked u (u.1 + d.1, u.2 + d.2) := by
        refine ⟨hnbr, hb, ?_⟩
        by_cases hmem : (u.1 + d.1, u.2 + d.2) ∈ blocked
        · right
          by_contra hne
          exact hblk ⟨hmem, hne⟩
        · exact Or.inl hmem
      by_cases himp : du + 1 < (alookup s.g (u.1 + d.1, u.2 + d.2)).getD 1000000000
      · -- push branch
        have hn_vis : (u.1 + d.1, u.2 + d.2) ∉ s.visited := by
          intro hn
          obtain ⟨dn, hgn, hdn⟩ := hcore.vis_exact _ hn
          have hle : dn ≤ du + 1 := isDist_succ_le hdu hdn hstep
          rw [hgn] at himp
          simp only [Option.getD_some] at himp
          omega
        have hn_start : (u.1 + d.1, u.2 + d.2) ≠ start := by
          intro h
          rw [h, hcore.start_g] at himp
          simp only [Option.getD_some] at himp
          omega
        rw [relaxOne_push hb hblk himp]
        refine ⟨?_, rfl, ?_, by simp, ?_⟩
        · refine ⟨?_, ?_, ?_, ?_, ?_, ?_, ?_, ?_⟩
          · -- vis_exact
            intro w hw
            obtain ⟨dw, hgw, hdw⟩ := hcore.vis_exact w hw
            have hwne : w ≠ (u.1 + d.1, u.2 + d.2) := fun h => hn_vis (h ▸ hw)
            exact ⟨dw, by rw [alookup_cons_ne hwne]; exact hgw, hdw⟩
          · -- ent_reach
            intro e' he'
            rcases List.mem_cons.mp he' with rfl | he''
            · exact ⟨reach_step hdu.1 hstep, rfl⟩
            · exact hcore.ent_reach e' he''
          · -- ent_g
            intro e' he'
            rcases List.mem_cons.mp he' with rfl | he''
            · exact ⟨du + 1, alookup_cons_self, le_rfl⟩
            · obtain ⟨dw, hgw, hdw⟩ := hcore.ent_g e' he''
              by_cases hwe : e'.cell.val = (u.1 + d.1, u.2 + d.2)
              · rw [hwe] at hgw
                rw [hgw] at himp
                simp only [Option.getD_some] at himp
                refine ⟨du + 1, ?_, by omega⟩
                rw [hwe]
                exact alookup_cons_self
              · exact ⟨dw, by rw [alookup_cons_ne hwe]; exact hgw, hdw⟩
          · -- tent
            intro v dv hnv hg
            by_cases hve : v = (u.1 + d.1, u.2 + d.2)
            · subst hve
              rw [alookup_cons_self] at hg
              cases hg
              exact ⟨hb, List.mem_cons_self _ _⟩
            · rw [alookup_cons_ne hve] at hg
              obtain ⟨hbv, hent⟩ := hcore.tent v dv hnv hg
              exact ⟨hbv, List.mem_cons_of_mem _ hent⟩
          · -- frontier_ne
            intro w dw hw hne hdw v
            intro hstep' hv'
            have hfc := hcore.frontier_ne w dw hw hne hdw v
            unfold frontCond at hfc
            obtain ⟨dv, hgv, hdvle⟩ := hfc hstep' hv'
            by_cases hve : v = (u.1 + d.1, u.2 + d.2)
            · subst hve
              rw [hgv] at himp
              simp only [Option.getD_some] at himp
              exact ⟨du + 1, alookup_cons_self, by omega⟩
            · exact ⟨dv, by rw [alookup_cons_ne hve]; exact hgv, hdvle⟩
          · -- came_ok
            intro v p hc
            by_cases hve : v = (u.1 + d.1, u.2 + d.2)
            · subst hve
              rw [alookup_cons_self] at hc
              cases hc
              exact ⟨hu_vis, hstep, du, hdu, alookup_cons_self⟩
            · rw [alookup_cons_ne hve] at hc
              obtain ⟨hp, hstep'', dp, hdp, hgp⟩ := hcore.came_ok v p hc
              exact ⟨hp, hstep'', dp, hdp,
                by rw [alookup_cons_ne hve]; exact hgp⟩
          · -- start_g
            rw [alookup_cons_ne (fun h => hn_start h.symm)]
            exact hcore.start_g
          · -- g_came
            intro v dv hg hne
            by_cases hve : v = (u.1 + d.1, u.2 + d.2)
            · subst hve
              exact ⟨u, alookup_cons_self⟩
            · rw [alookup_cons_ne hve] at hg
              obtain ⟨p, hp⟩ := hcore.g_came v dv hg hne
              exact ⟨p, by rw [alookup_cons_ne hve]; exact hp⟩
        · -- g monotone
          intro v dv hg
          by_cases hve : v = (u.1 + d.1, u.2 + d.2)
          · subst hve
            rw [hg] at himp
            simp only [Option.getD_some] at himp
            exact ⟨du + 1, by omega, alookup_cons_self⟩
          · exact ⟨dv, le_rfl, by rw [alookup_cons_ne hve]; exact hg⟩
        · -- frontier condition established
          intro _ _
          exact ⟨du + 1, alookup_cons_self, le_rfl⟩
      · -- no-improvement branch
        rw [relaxOne_no_improve hb hblk himp]
        refine ⟨hcore, rfl, fun v dv h => ⟨dv, le_rfl, h⟩, by omega, ?_⟩
        intro _ _
        cases halo : alookup s.g (u.1 + d.1, u.2 + d.2) with
        | none =>
          exfalso
          rw [halo] at himp
          simp only [Option.getD_none] at himp
          have hbound := isDist_lt_grid hs hdu
          rw [gridFinset_card] at hbound
          omega
        | some dv =>
          rw [halo] at himp
          simp only [Option.getD_some] at himp
          exact ⟨dv, rfl, by omega⟩
  · rw [relaxOne_out hb]
    refine ⟨hcore, rfl, fun v dv h => ⟨dv, le_rfl, h⟩, by omega, ?_⟩
    intro hstep _
    exact absurd hstep.2.1 hb

/-- Helper: folding relaxations over a list of neighbour offsets preserves
the relaxation-time invariant, keeps the closed set, only lowers tentative
values, grows the heap by at most the number of offsets, establishes the
frontier condition for every processed offset, and preserves already
established frontier conditions. -/
theorem relaxList_spec {start goal : Cell} {blocked : Finset Cell} {u : Cell}
    {du : ℕ} (hs : InB start) :
    ∀ (ds : List (ℤ × ℤ)), (∀ d ∈ ds, Nbr u (u.1 + d.1, u.2 + d.2)) →
    ∀ s : AState, AInvCore start goal blocked u s → u ∈ s.visited →
      IsDist start goal blocked u du →
      AInvCore start goal blocked u (ds.foldl (relaxOne goal blocked du u) s) ∧
      (ds.foldl (relaxOne goal blocked du u) s).visited = s.visited ∧
      (∀ v dv, alookup s.g v = some dv →
        ∃ dv', dv' ≤ dv ∧
          alookup (ds.foldl (relaxOne goal blocked du u) s).g v = some dv') ∧
      (ds.foldl (relaxOne goal blocked du u) s).openh.length ≤
        s.openh.length + ds.length ∧
      (∀ d ∈ ds, frontCond goal blocked du (ds.foldl (relaxOne goal blocked du u) s)
        u (u.1 + d.1, u.2 + d.2)) ∧
      (∀ v, frontCond goal blocked du s u v →
        frontCond goal blocked du (ds.foldl (relaxOne goal blocked du u) s) u v) := by
  intro ds
  induction ds with
  | nil =>
    intro _ s hcore _ _
    exact ⟨hcore, rfl, fun v dv h => ⟨dv, le_rfl, h⟩, by simp, by simp,
      fun v h => h⟩
  | cons d ds ih =>
    intro hnbr s hcore hu_vis hdu
    simp only [List.foldl_cons, List.length_cons]
    obtain ⟨hc1, hvis1, hg1, hlen1, hfc1⟩ :=
      relaxOne_spec hs d (hnbr d (List.mem_cons_self d ds)) hcore hu_vis hdu
    have hu_vis1 : u ∈ (relaxOne goal blocked du u s d).visited := by
      rw [hvis1]; exact hu_vis
    obtain ⟨hc2, hvis2, hg2, hlen2, hest2, hpres2⟩ :=
      ih (fun d' hd' => hnbr d' (List.mem_cons_of_mem d hd'))
        (relaxOne goal blocked du u s d) hc1 hu_vis1 hdu
    have htrans : ∀ v, frontCond goal blocked du (relaxOne goal blocked du u s d) u v →
        frontCond goal blocked du
          (ds.foldl (relaxOne goal blocked du u) (relaxOne goal blocked du u s d)) u v :=
      hpres2
    refine ⟨hc2, by rw [hvis2, hvis1], ?_, ?_, ?_, ?_⟩
    · intro v dv hg
      obtain ⟨dv', hle', hg'⟩ := hg1 v dv hg
      obtain ⟨dv'', hle'', hg''⟩ := hg2 v dv' hg'
      exact ⟨dv'', le_trans hle'' hle', hg''⟩
    · omega
    · intro d' hd'
      rcases List.mem_cons.mp hd' with rfl | hd''
      · exact htrans _ hfc1
      · exact hest2 d' hd''
    · intro v hv
      refine htrans v ?_
      intro hstep hv'
      rw [hvis1] at hv'
      obtain ⟨dv, hgv, hle⟩ := hv hstep hv'
      obtain ⟨dv', hle', hg'⟩ := hg1 v dv hgv
      exact ⟨dv', hg', by omega⟩

/-- Helper: settling a freshly popped non-goal cell and relaxing its four
neighbours restores the full invariant; the closed set gains exactly the
settled cell and the heap grows by at most four entries net of the pop. -/
theorem AInv_settle {start goal : Cell} {blocked : Finset Cell} {s : AState}
    {e : Ent} {rest : List Ent} (hs : InB start)
    (inv : AInv start goal blocked s) (hpop : popMin s.openh = some (e, rest))
    (hnv : e.cell.val ∉ s.visited) :
    AInv start goal blocked (relaxAll goal blocked e.gv e.cell.val
      { openh := rest, came := s.came, g := s.g,
        visited := insert e.cell.val s.visited }) ∧
    (relaxAll goal blocked e.gv e.cell.val
      { openh := rest, came := s.came, g := s.g,
        visited := insert e.cell.val s.visited }).visited =
      insert e.cell.val s.visited ∧
    (relaxAll goal blocked e.gv e.cell.val
      { openh := rest, came := s.came, g := s.g,
        visited := insert e.cell.val s.visited }).openh.length ≤
      rest.length + 4 := by
  have hdu := pop_settle_exact inv hpop hnv
  have hcore := AInvCore_after_insert inv hpop hnv
  have hnbrs : ∀ d ∈ nbrOffsets,
      Nbr e.cell.val (e.cell.val.1 + d.1, e.cell.val.2 + d.2) := by
    intro d hd
    exact nbr_iff_offset.mpr ⟨d, hd, rfl⟩
  obtain ⟨hc, hvis, hg, hlen, hest, -⟩ :=
    relaxList_spec hs nbrOffsets hnbrs
      { openh := rest, came := s.came, g := s.g,
        visited := insert e.cell.val s.visited }
      hcore (Finset.mem_insert_self _ _) hdu
  refine ⟨?_, hvis, by simpa [nbrOffsets] using hlen⟩
  refine ⟨hc.vis_exact, hc.ent_reach, hc.ent_g, hc.tent, ?_, hc.came_ok,
    hc.start_g, hc.g_came⟩
  intro w dw hw hdw v
  by_cases hwu : w = e.cell.val
  · subst hwu
    have hdweq : dw = e.gv := isDist_unique hdw hdu
    subst hdweq
    intro hstep hv'
    obtain ⟨d, hd, hveq⟩ := nbr_iff_offset.mp hstep.1
    subst hveq
    exact hest d hd hstep hv'
  · exact hc.frontier_ne w dw hw hwu hdw v

/-! ## A* reconstruction -/

/-- Helper: the reconstruction walk from a cell of tentative value `dv`
produces, once reversed, a legal walk of exactly `dv` edges from `start`,
for any fuel of at least `dv`. -/
theorem walkCame_spec {start goal : Cell} {blocked : Finset Cell} {s : AState}
    (inv : AInv start goal blocked s) :
    ∀ (dv : ℕ) (v : Cell), alookup s.g v = some dv → ∀ fuel, dv ≤ fuel →
      ∃ vs, (walkCame s.came fuel v).reverse = start :: vs ∧
        Walk goal blocked start v vs ∧ vs.length = dv := by
  intro dv
  induction dv with
  | zero =>
    intro v hg fuel _
    have hv : v = start := by
      by_contra hne
      obtain ⟨p, hp⟩ := inv.g_came v 0 hg hne
      obtain ⟨-, -, dp, -, hg'⟩ := inv.came_ok v p hp
      rw [hg] at hg'
      simp at hg'
    have hnone : alookup s.came v = none := by
      cases hc : alookup s.came v with
      | none => rfl
      | some p =>
        obtain ⟨-, -, dp, -, hg'⟩ := inv.came_ok v p hc
        rw [hg] at hg'
        simp at hg'
    have hwc : walkCame s.came fuel v = [v] := by
      cases fuel with
      | zero => rfl
      | succ n =>
        simp only [walkCame]
        rw [hnone]
    rw [hwc, hv]
    exact ⟨[], rfl, rfl, rfl⟩
  | succ d ih =>
    intro v hg fuel hfuel
    have hvne : v ≠ start := by
      intro h
      subst h
      rw [inv.start_g] at hg
      simp at hg
    obtain ⟨p, hp⟩ := inv.g_came v (d + 1) hg hvne
    obtain ⟨hpvis, hpstep, dp, hdp, hg'⟩ := inv.came_ok v p hp
    have hdpd : dp = d := by
      rw [hg] at hg'
      injection hg' with h'
      omega
    subst hdpd
    obtain ⟨dp', hgp, hdp'⟩ := inv.vis_exact p hpvis
    have hdeq : dp' = dp := isDist_unique hdp' hdp
    subst hdeq
    obtain ⟨f, rfl⟩ : ∃ f, fuel = f + 1 := ⟨fuel - 1, by omega⟩
    obtain ⟨vs, hrev, hwalk, hlen⟩ := ih p hgp f (by omega)
    refine ⟨vs ++ [v], ?_, ?_, by simp [hlen]⟩
    · simp only [walkCame]
      rw [hp, List.reverse_cons, hrev]
      simp
    · exact (walk_append vs [v] start v).mpr ⟨p, hwalk, hpstep, rfl⟩

/-- Helper: every tentative value is bounded by the length of the parent
list (the parent chain passes through that many distinct keys). -/
theorem came_len_ge {start goal : Cell} {blocked : Finset Cell} {s : AState}
    (inv : AInv start goal blocked s) :
    ∀ (dv : ℕ) (v : Cell), alookup s.g v = some dv → dv ≤ s.came.length := by
  have hchain : ∀ (dv : ℕ) (v : Cell), alookup s.g v = some dv →
      ∃ ks : List Cell, ks.Nodup ∧ ks.length = dv ∧
        (∀ k ∈ ks, ∃ q, alookup s.came k = some q) ∧
        (∀ k ∈ ks, ∃ dk, alookup s.g k = some dk ∧ dk ≤ dv) := by
    intro dv
    induction dv with
    | zero =>
      intro v _
      exact ⟨[], List.nodup_nil, rfl, by simp, by simp⟩
    | succ d ih =>
      intro v hg
      have hvne : v ≠ start := by
        intro h
        subst h
        rw [inv.start_g] at hg
        simp at hg
      obtain ⟨p, hp⟩ := inv.g_came v (d + 1) hg hvne
      obtain ⟨hpvis, -, dp, hdp, hg'⟩ := inv.came_ok v p hp
      have hdpd : dp = d := by
        rw [hg] at hg'
        injection hg' with h'
        omega
      subst hdpd
      obtain ⟨dp', hgp, hdp'⟩ := inv.vis_exact p hpvis
      have hdeq : dp' = dp := isDist_unique hdp' hdp
      subst hdeq
      obtain ⟨ks, hnd, hlen, hkeys, hvals⟩ := ih p hgp
      refine ⟨v :: ks, ?_, by simp [hlen], ?_, ?_⟩
      · rw [List.nodup_cons]
        refine ⟨?_, hnd⟩
        intro hvk
        obtain ⟨dk, hgk, hdk⟩ := hvals v hvk
        rw [hg] at hgk
        injection hgk with h'
        omega
      · intro k hk
        rcases List.mem_cons.mp hk with rfl | hk'
        · exact ⟨p, hp⟩
        · exact hkeys k hk'
      · intro k hk
        rcases List.mem_cons.mp hk with rfl | hk'
        · exact ⟨dp' + 1, hg, le_rfl⟩
        · obtain ⟨dk, hgk, hdk⟩ := hvals k hk'
          exact ⟨dk, hgk, by omega⟩
  intro dv v hg
  obtain ⟨ks, hnd, hlen, hkeys, -⟩ := hchain dv v hg
  have hsub : ks ⊆ s.came.map Prod.fst := by
    intro k hk
    obtain ⟨q, hq⟩ := hkeys k hk
    exact alookup_mem_keys hq
  have hle := (hnd.subperm hsub).length_le
  rw [hlen, List.length_map] at hle
  exact hle

/-! ## A* path shape conversions -/

/-- Helper: a chain with a recorded last element is a walk. -/
theorem chain_getLast_walk {goal : Cell} {blocked : Finset Cell} :
    ∀ (vs : List Cell) (a c : Cell),
      List.Chain' (stepOK goal blocked) (a :: vs) →
      (a :: vs).getLast? = some c → Walk goal blocked a c vs := by
  intro vs
  induction vs with
  | nil =>
    intro a c _ hl
    simp only [List.getLast?_singleton, Option.some.injEq] at hl
    exact hl
  | cons v vs ih =>
    intro a c hch hl
    rw [List.chain'_cons] at hch
    have hl' : (v :: vs).getLast? = some c := by
      rwa [List.getLast?_cons_cons] at hl
    exact ⟨hch.1, ih v c hch.2 hl'⟩

/-- Helper: a walk is a chain with a recorded last element. -/
theorem walk_chain_getLast {goal : Cell} {blocked : Finset Cell} :
    ∀ (vs : List Cell) (a c : Cell), Walk goal blocked a c vs →
      List.Chain' (stepOK goal blocked) (a :: vs) ∧
        (a :: vs).getLast? = some c := by
  intro vs
  induction vs with
  | nil =>
    intro a c h
    cases h
    exact ⟨List.chain'_singleton a, rfl⟩
  | cons v vs ih =>
    rintro a c ⟨hs, hw⟩
    obtain ⟨hch, hl⟩ := ih v c hw
    exact ⟨List.chain'_cons.mpr ⟨hs, hch⟩, by rwa [List.getLast?_cons_cons]⟩

/-- Helper: the claim-facing path shape is exactly a start-headed walk to
the goal. -/
theorem validPath_iff_walk {start goal : Cell} {blocked : Finset Cell}
    {p : List Cell} :
    ValidPath start goal blocked p ↔
      ∃ vs, p = start :: vs ∧ Walk goal blocked start goal vs := by
  constructor
  · rintro ⟨hh, hl, hch⟩
    obtain ⟨vs, rfl⟩ : ∃ vs, p = start :: vs := by
      cases p with
      | nil => cases hh
      | cons a vs =>
        simp only [List.head?_cons, Option.some.injEq] at hh
        exact ⟨vs, by rw [hh]⟩
    exact ⟨vs, rfl, chain_getLast_walk vs start goal hch hl⟩
  · rintro ⟨vs, rfl, hw⟩
    obtain ⟨hch, hl⟩ := walk_chain_getLast vs start goal hw
    exact ⟨rfl, hl, hch⟩

/-! ## A* initial state and measure -/

/-- Helper: the invariant holds for the initial search state built by
`astar`. -/
theorem AInv_init {start goal : Cell} {blocked : Finset Cell} (hs : InB start) :
    AInv start goal blocked
      { openh := [⟨manh goal start, 0, ⟨start, hs⟩⟩], came := [],
        g := [(start, 0)], visited := ∅ } := by
  refine ⟨?_, ?_, ?_, ?_, ?_, ?_, ?_, ?_⟩
  · intro u hu
    exact absurd hu (Finset.not_mem_empty u)
  · intro e he
    rcases List.mem_singleton.mp he with rfl
    exact ⟨⟨[], rfl, rfl⟩, by simp⟩
  · intro e he
    rcases List.mem_singleton.mp he with rfl
    exact ⟨0, alookup_cons_self, le_rfl⟩
  · intro v dv hnv hg
    by_cases hv : v = start
    · subst hv
      rw [alookup_cons_self] at hg
      cases hg
      refine ⟨hs, ?_⟩
      simp
    · rw [alookup_cons_ne hv] at hg
      simp [alookup] at hg
  · intro u du hu
    exact absurd hu (Finset.not_mem_empty u)
  · intro v p hc
    simp [alookup] at hc
  · exact alookup_cons_self
  · intro v dv hg hne
    by_cases hv : v = start
    · exact absurd hv hne
    · rw [alookup_cons_ne hv] at hg
      simp [alookup] at hg

/-- Helper: a stale pop strictly decreases the loop measure. -/
theorem ameasure_skip {s : AState} {e : Ent} {rest : List Ent}
    (hpop : popMin s.openh = some (e, rest)) :
    ameasure { s with openh := rest } < ameasure s := by
  have hlen := (popMin_perm hpop).length_eq
  simp only [List.length_cons] at hlen
  unfold ameasure
  simp only
  omega

/-- Helper: settling a cell strictly decreases the loop measure. -/
theorem ameasure_settle {start goal : Cell} {blocked : Finset Cell} {s : AState}
    {e : Ent} {rest : List Ent} (hs : InB start)
    (inv : AInv start goal blocked s) (hpop : popMin s.openh = some (e, rest))
    (hnv : e.cell.val ∉ s.visited) :
    ameasure (relaxAll goal blocked e.gv e.cell.val
      { openh := rest, came := s.came, g := s.g,
        visited := insert e.cell.val s.visited }) < ameasure s := by
  obtain ⟨-, hvis, hlen⟩ := AInv_settle hs inv hpop hnv
  have hheap := (popMin_perm hpop).length_eq
  simp only [List.length_cons] at hheap
  have hmem : e.cell.val ∈ gridFinset \ s.visited :=
    Finset.mem_sdiff.mpr ⟨mem_gridFinset.mpr e.cell.2, hnv⟩
  have hcard : (gridFinset \ insert e.cell.val s.visited).card + 1 =
      (gridFinset \ s.visited).card := by
    rw [Finset.sdiff_insert]
    exact Finset.card_erase_add_one hmem
  unfold ameasure
  rw [hvis]
  omega

/-! ## A* master inductions -/

/-- Helper: when no legal walk reaches the goal, the loop drains the heap
and returns `[start]`. -/
theorem aloop_no_path {start goal : Cell} {blocked : Finset Cell} (hs : InB start) :
    ∀ (fuel : ℕ) (s : AState), AInv start goal blocked s → ameasure s < fuel →
      (¬ ∃ vs, Walk goal blocked start goal vs) →
      aloopFuel start goal blocked fuel s = [start] := by
  intro fuel
  induction fuel with
  | zero =>
    intro s _ hm _
    omega
  | succ n ih =>
    intro s inv hm hnp
    simp only [aloopFuel]
    cases hpop : popMin s.openh with
    | none => rfl
    | some pr =>
      obtain ⟨e, rest⟩ := pr
      dsimp only
      by_cases hv : e.cell.val ∈ s.visited
      · rw [if_pos hv]
        refine ih _ (AInv_skip inv hpop hv) ?_ hnp
        have := ameasure_skip hpop
        omega
      · rw [if_neg hv]
        by_cases hgoal : e.cell.val = goal
        · exfalso
          obtain ⟨vs, hw, -⟩ := (inv.ent_reach e (popMin_mem hpop)).1
          rw [hgoal] at hw
          exact hnp ⟨vs, hw⟩
        · rw [if_neg hgoal]
          refine ih _ (AInv_settle hs inv hpop hv).1 ?_ hnp
          have := ameasure_settle hs inv hpop hv
          omega

/-- Helper: when some legal walk reaches the goal, the loop returns a
shortest claim-shaped path. -/
theorem aloop_path {start goal : Cell} {blocked : Finset Cell} (hs : InB start) :
    ∀ (fuel : ℕ) (s : AState), AInv start goal blocked s → ameasure s < fuel →
      goal ∉ s.visited → (∃ vs, Walk goal blocked start goal vs) →
      ∃ p, aloopFuel start goal blocked fuel s = p ∧
        ValidPath start goal blocked p ∧
        ∀ q, ValidPath start goal blocked q → p.length ≤ q.length := by
  intro fuel
  induction fuel with
  | zero =>
    intro s _ hm _ _
    omega
  | succ n ih =>
    intro s inv hm hgnv hex
    simp only [aloopFuel]
    cases hpop : popMin s.openh with
    | none =>
      exfalso
      obtain ⟨vs, hw⟩ := hex
      obtain ⟨e, he, -⟩ := cover_lemma inv vs goal hw hgnv
      rw [popMin_eq_none.mp hpop] at he
      exact absurd he (List.not_mem_nil e)
    | some pr =>
      obtain ⟨e, rest⟩ := pr
      dsimp only
      by_cases hv : e.cell.val ∈ s.visited
      · rw [if_pos hv]
        refine ih _ (AInv_skip inv hpop hv) ?_ hgnv hex
        have := ameasure_skip hpop
        omega
      · rw [if_neg hv]
        by_cases hgoal : e.cell.val = goal
        · rw [if_pos hgoal]
          have hdu := pop_settle_exact inv hpop hv
          have hgval := pop_settle_g inv hpop hv
          rw [hgoal] at hdu hgval
          obtain ⟨vs, hrev, hwalk, hlen⟩ := walkCame_spec inv e.gv goal hgval
            s.came.length (came_len_ge inv e.gv goal hgval)
          refine ⟨_, rfl, ?_, ?_⟩
          · rw [hrev]
            exact validPath_iff_walk.mpr ⟨vs, rfl, hwalk⟩
          · intro q hq
            obtain ⟨ws, rfl, hwq⟩ := validPath_iff_walk.mp hq
            have hminq : e.gv ≤ ws.length := hdu.2 ws.length ⟨ws, hwq, rfl⟩
            rw [hrev]
            simp only [List.length_cons]
            omega
        · rw [if_neg hgoal]
          refine ih _ (AInv_settle hs inv hpop hv).1 ?_ ?_ hex
          · have := ameasure_settle hs inv hpop hv
            omega
          · rw [(AInv_settle hs inv hpop hv).2.1]
            intro hmem
            rcases Finset.mem_insert.mp hmem with h | h
            · exact hgoal h.symm
            · exact hgnv h

/-! ## A* top-level correctness -/

/-- Helper: with both endpoints in bounds, `astar` runs the loop from the
initial state. -/
theorem astar_eq_loop {start goal : Cell} {blocked : Finset Cell}
    (hs : InB start) (hg : InB goal) :
    astar start goal blocked =
      aloopFuel start goal blocked (5 * gridFinset.card + 2)
        { openh := [⟨manh goal start, 0, ⟨start, hs⟩⟩], came := [],
          g := [(start, 0)], visited := ∅ } := by
  simp only [astar]
  rw [dif_pos hs, if_pos hg]

/-- Helper: the initial state's measure is below the fuel `astar` uses. -/
theorem ameasure_init {start goal : Cell} (hs : InB start) :
    ameasure { openh := [⟨manh goal start, 0, ⟨start, hs⟩⟩], came := [],
               g := [(start, 0)], visited := (∅ : Finset Cell) } <
      5 * gridFinset.card + 2 := by
  unfold ameasure
  rw [Finset.sdiff_empty]
  simp

/-! ## C3: A* soundness and optimality -/

/-- C3: for in-bounds start and goal, whenever a claim-shaped path exists
(start first, goal last, consecutive cells 4-adjacent in-bounds legal
moves with the goal exempt from blocking), `astar` returns such a path of
minimal length. -/
theorem astar_finds_shortest_path (start goal : Cell) (blocked : Finset Cell)
    (hs : InB start) (hg : InB goal)
    (hex : ∃ p, ValidPath start goal blocked p) :
    ∃ p, astar start goal blocked = p ∧ ValidPath start goal blocked p ∧
      ∀ q, ValidPath start goal blocked q → p.length ≤ q.length := by
  rw [astar_eq_loop hs hg]
  have hex' : ∃ vs, Walk goal blocked start goal vs := by
    obtain ⟨p, hp⟩ := hex
    obtain ⟨vs, -, hw⟩ := validPath_iff_walk.mp hp
    exact ⟨vs, hw⟩
  exact aloop_path hs _ _ (AInv_init hs) (ameasure_init hs)
    (Finset.not_mem_empty goal) hex'

/-- C3 witness: on the concrete reachable pair `(0,0) → (1,0)` with no
blocked cells, the hypotheses hold and the theorem applies. -/
theorem astar_finds_shortest_path_witness :
    (InB ((0 : ℤ), (0 : ℤ)) ∧ InB ((1 : ℤ), (0 : ℤ)) ∧
      ValidPath (0, 0) (1, 0) ∅ [((0 : ℤ), (0 : ℤ)), (1, 0)]) ∧
    (∃ p, astar ((0 : ℤ), (0 : ℤ)) (1, 0) ∅ = p ∧
      ValidPath (0, 0) (1, 0) ∅ p ∧
      ∀ q, ValidPath (0, 0) (1, 0) ∅ q → p.length ≤ q.length) := by
  have hvp : ValidPath (0, 0) (1, 0) ∅ [((0 : ℤ), (0 : ℤ)), (1, 0)] := by
    refine ⟨rfl, rfl, List.chain'_cons.mpr ⟨?_, List.chain'_singleton _⟩⟩
    decide
  exact ⟨⟨by decide, by decide, hvp⟩,
    astar_finds_shortest_path (0, 0) (1, 0) ∅ (by decide) (by decide)
      ⟨[((0 : ℤ), (0 : ℤ)), (1, 0)], hvp⟩⟩

/-! ## C4: A* fails soft -/

/-- Helper: a nonempty walk decomposes into its last move. -/
theorem walk_last_step {goal : Cell} {blocked : Finset Cell} {a c : Cell}
    {vs : List Cell} (h : Walk goal blocked a c vs) (hne : vs ≠ []) :
    ∃ w ys, vs = ys ++ [c] ∧ Walk goal blocked a w ys ∧
      stepOK goal blocked w c := by
  have hdecomp : vs = vs.dropLast ++ [vs.getLast hne] :=
    (List.dropLast_append_getLast hne).symm
  rw [hdecomp] at h
  obtain ⟨b, hb, hstep, hlast⟩ :
      ∃ b, Walk goal blocked a b vs.dropLast ∧
        stepOK goal blocked b (vs.getLast hne) ∧ vs.getLast hne = c := by
    obtain ⟨b, h1, h2, h3⟩ := (walk_append _ _ a c).mp h
    exact ⟨b, h1, h2, h3⟩
  rw [hlast] at hstep
  rw [hlast] at hdecomp
  exact ⟨b, vs.dropLast, hdecomp, hb, hstep⟩

/-- C4: `astar` fails soft — an out-of-bounds start or goal yields the
empty sequence, and in-bounds endpoints with no claim-shaped path yield
exactly the single-element sequence `[start]`; the function is total, so
no error is ever raised. -/
theorem astar_fails_soft :
    (∀ (start goal : Cell) (blocked : Finset Cell), ¬ InB start ∨ ¬ InB goal →
      astar start goal blocked = []) ∧
    (∀ (start goal : Cell) (blocked : Finset Cell), InB start → InB goal →
      (¬ ∃ p, ValidPath start goal blocked p) →
      astar start goal blocked = [start]) := by
  constructor
  · intro start goal blocked h
    simp only [astar]
    rcases h with h | h
    · rw [dif_neg h]
    · by_cases hs : InB start
      · rw [dif_pos hs, if_neg h]
      · rw [dif_neg hs]
  · intro start goal blocked hs hg hnp
    rw [astar_eq_loop hs hg]
    refine aloop_no_path hs _ _ (AInv_init hs) (ameasure_init hs) ?_
    rintro ⟨vs, hw⟩
    exact hnp ⟨start :: vs, validPath_iff_walk.mpr ⟨vs, rfl, hw⟩⟩

/-- C4 witness: an out-of-bounds start yields `[]`, and walling off the
goal `(0,0)` behind the blocked cells `(1,0)` and `(0,1)` makes `astar`
from `(5,5)` return exactly `[(5,5)]`. -/
theorem astar_fails_soft_witness :
    astar ((-1 : ℤ), (0 : ℤ)) ((5 : ℤ), (5 : ℤ)) ∅ = [] ∧
    astar ((5 : ℤ), (5 : ℤ)) ((0 : ℤ), (0 : ℤ))
        {((1 : ℤ), (0 : ℤ)), ((0 : ℤ), (1 : ℤ))} = [((5 : ℤ), (5 : ℤ))] := by
  constructor
  · exact astar_fails_soft.1 _ _ _ (Or.inl (by decide))
  · refine astar_fails_soft.2 _ _ _ (by decide) (by decide) ?_
    rintro ⟨p, hp⟩
    obtain ⟨vs, -, hw⟩ := validPath_iff_walk.mp hp
    have hne : vs ≠ [] := by
      intro h
      rw [h] at hw
      exact absurd hw (by decide)
    obtain ⟨w, ys, -, hwalk, hstep⟩ := walk_last_step hw hne
    have hw_adj : Nbr w ((0 : ℤ), (0 : ℤ)) := hstep.1
    have hmemOf : InB w →
        w ∈ ({((1 : ℤ), (0 : ℤ)), ((0 : ℤ), (1 : ℤ))} : Finset Cell) := by
      intro hw_inB
      rcases hw_adj with h | h | h | h <;>
        · have h1 := congrArg Prod.fst h
          have h2 := congrArg Prod.snd h
          simp only at h1 h2
          unfold InB at hw_inB
          simp only [Finset.mem_insert, Finset.mem_singleton, Prod.ext_iff]
          omega
    cases hys : ys with
    | nil =>
      rw [hys] at hwalk
      have hw5 : w = ((5 : ℤ), (5 : ℤ)) := hwalk.symm
      rw [hw5] at hw_adj
      revert hw_adj
      decide
    | cons y ytail =>
      rw [hys] at hwalk
      have hne2 : (y :: ytail) ≠ [] := by simp
      obtain ⟨w2, zs, -, -, hstep2⟩ := walk_last_step hwalk hne2
      have hw_mem := hmemOf hstep2.2.1
      rcases hstep2.2.2 with hnb | hgl
      · exact hnb hw_mem
      · rw [hgl] at hw_adj
        revert hw_adj
        decide

/-! ## C5: agent cell consistency -/

/-- Helper: for in-bounds endpoints the search result is `[start]` or a
claim-shaped path. -/
theorem astar_cases {start goal : Cell} {blocked : Finset Cell}
    (hs : InB start) (hg : InB goal) :
    astar start goal blocked = [start] ∨
      ∃ p, astar start goal blocked = p ∧ ValidPath start goal blocked p := by
  by_cases hex : ∃ p, ValidPath start goal blocked p
  · obtain ⟨p, hp, hv, -⟩ := astar_finds_shortest_path start goal blocked hs hg hex
    exact Or.inr ⟨p, hp, hv⟩
  · exact Or.inl (astar_fails_soft.2 start goal blocked hs hg hex)

/-- Helper: the search result always contains its start cell. -/
theorem astar_start_mem {start goal : Cell} {blocked : Finset Cell}
    (hs : InB start) (hg : InB goal) :
    start ∈ astar start goal blocked := by
  rcases astar_cases hs hg with h | ⟨p, hp, hv⟩
  · rw [h]
    exact List.mem_singleton_self start
  · rw [hp]
    obtain ⟨vs, rfl, -⟩ := validPath_iff_walk.mp hv
    exact List.mem_cons_self start vs

/-- C5: a freshly spawned agent has no path yet, and after any
`Enemy.update` with in-bounds current cell and target the agent's reported
cell is a member of its most recently computed path: on a replan the new
path starts at the current cell, and the cell is only ever reassigned to a
path node the agent has exactly snapped to. -/
theorem enemy_cell_member_of_path :
    (∀ (kind : ℕ) (cell : Cell), (mkEnemy kind cell).path = []) ∧
    (∀ (dt : ℝ) (target : Cell) (blocked : Finset Cell) (e : EnemyS),
      InB e.cell → InB target → (e.path = [] ∨ e.cell ∈ e.path) →
      (enemyUpdate dt target blocked e).cell ∈
        (enemyUpdate dt target blocked e).path) := by
  constructor
  · intro kind cell
    rfl
  · intro dt target blocked e hcell htarget hpre
    have hmove : ∀ e1 : EnemyS, e1.cell ∈ e1.path →
        (enemyMove dt e1).cell ∈ (enemyMove dt e1).path := by
      intro e1 h
      simp only [enemyMove]
      split
      · split
        · split
          · exact List.get_mem _ _ _
          · exact h
        · exact h
      · exact h
    have hmem1 : (enemyReplan dt target blocked e).cell ∈
        (enemyReplan dt target blocked e).path := by
      simp only [enemyReplan]
      split
      · exact astar_start_mem hcell htarget
      · rename_i h
        exact hpre.resolve_left (fun hnil => h (Or.inr hnil))
    exact hmove _ hmem1

/-- C5 witness: a freshly spawned agent at `(0,0)` updated toward target
`(0,0)` reports a cell on its newly computed path. -/
theorem enemy_cell_member_of_path_witness :
    (enemyUpdate 1 ((0 : ℤ), (0 : ℤ)) ∅ (mkEnemy 0 (0, 0))).cell ∈
      (enemyUpdate 1 ((0 : ℤ), (0 : ℤ)) ∅ (mkEnemy 0 (0, 0))).path :=
  enemy_cell_member_of_path.2 1 (0, 0) ∅ (mkEnemy 0 (0, 0))
    (by decide) (by decide) (Or.inl rfl)

/-! ## C6: combat before head check -/

/-- Helper: one bullet's scan leaves only enemies of positive hp when all
incoming enemies have positive hp (a kill is removed on the spot). -/
theorem bulletStep_hp_pos {es : List EnemyS} {b : Bullet}
    (h : ∀ x ∈ es, 1 ≤ x.hp) : ∀ x ∈ (bulletStep es b).1, 1 ≤ x.hp := by
  simp only [bulletStep]
  split
  · exact h
  · split
    · exact h
    · rename_i i
      intro x hx
      dsimp only at hx
      split at hx
      · exact h x (List.mem_of_mem_eraseIdx hx)
      · rename_i hpos
        rcases List.mem_or_eq_of_mem_set hx with hx' | rfl
        · exact h x hx'
        · dsimp only at hpos ⊢
          omega
  
/-- Helper: the whole bullet pass leaves only enemies of positive hp. -/
theorem combatPass_hp_pos : ∀ (bs : List Bullet) (es : List EnemyS),
    (∀ x ∈ es, 1 ≤ x.hp) → ∀ x ∈ (combatPass bs es).2, 1 ≤ x.hp := by
  intro bs
  induction bs with
  | nil =>
    intro es h
    exact h
  | cons b rest ih =>
    intro es h
    exact ih (bulletStep es b).1 (bulletStep_hp_pos h)

/-- C6: in the frame's resolution order the projectile-versus-agent pass
runs first and removes killed agents immediately, and the head-contact
check then ranges only over the surviving agents: the game ends by head
contact exactly when some agent that survived combat with positive hp
overlaps the head, so an agent destroyed by a projectile this frame can
never end the game this frame. -/
theorem combat_removes_before_head_check
    (bs : List Bullet) (es : List EnemyS) (headR : RectZ)
    (h : ∀ x ∈ es, 1 ≤ x.hp) :
    ((resolveFrame bs es headR).2 ↔
      ∃ x ∈ (combatPass bs es).2, colliderect (enemyRect x) headR ∧ 1 ≤ x.hp) := by
  constructor
  · rintro ⟨x, hx, hcol⟩
    exact ⟨x, hx, hcol, combatPass_hp_pos bs es h x hx⟩
  · rintro ⟨x, hx, hcol, -⟩
    exact ⟨x, hx, hcol⟩

/-- C6 witness: the resolution-order equivalence at a concrete frame with
no bullets and no enemies. -/
theorem combat_removes_before_head_check_witness :
    (resolveFrame [] [] ⟨0, 0, 1, 1⟩).2 ↔
      ∃ x ∈ (combatPass [] []).2, colliderect (enemyRect x) ⟨0, 0, 1, 1⟩ ∧
        1 ≤ x.hp :=
  combat_removes_before_head_check [] [] ⟨0, 0, 1, 1⟩ (by simp)

/-! ## C7: projectile single hit -/

/-- Helper: a containment index is in range. -/
theorem firstHitIdx_lt {es : List EnemyS} {px py : ℝ} {i : ℕ}
    (h : firstHitIdx es px py = some i) : i < es.length := by
  induction es generalizing i with
  | nil => cases h
  | cons e rest ih =>
    simp only [firstHitIdx] at h
    split at h
    · cases h
      simp
    · cases hrest : firstHitIdx rest px py with
      | none =>
        rw [hrest] at h
        cases h
      | some j =>
        rw [hrest] at h
        simp only [Option.map_some'] at h
        cases h
        have := ih hrest
        simp only [List.length_cons]
        omega

/-- C7: a projectile decrements the hp of at most one agent exactly once
in its entire lifetime.  Already-hit projectiles are skipped without any
containment test and left unchanged; an unhit projectile either leaves the
enemy list unchanged or decrements exactly one agent's hp by one (removing
it when the hp reaches zero) and is marked hit at that moment; the
kinematic update never clears the hit mark; and over any sequence of
frames the lifetime hit count is at most one, zero for an already-hit
projectile, the per-frame firing decision being exactly the scan's. -/
theorem projectile_single_hit :
    (∀ (es : List EnemyS) (b : Bullet), b.hit = true → bulletStep es b = (es, b)) ∧
    (∀ (es : List EnemyS) (b : Bullet), (bulletStep es b).1 = es ∨
      ∃ i, ∃ hi : i < es.length,
        (bulletStep es b).1 =
          (if (es.get ⟨i, hi⟩).hp - 1 ≤ 0 then es.eraseIdx i
           else es.set i { es.get ⟨i, hi⟩ with hp := (es.get ⟨i, hi⟩).hp - 1 }) ∧
        (bulletStep es b).2.hit = true) ∧
    (∀ (es : List EnemyS) (b : Bullet),
      (bulletStep es b).2.hit = (b.hit || bulletFired es b.pos.1 b.pos.2 b.hit)) ∧
    (∀ (dt : ℝ) (b b' : Bullet), bulletKinematics dt b = some b' →
      b.hit = true → b'.hit = true) ∧
    (∀ (hit : Bool) (frames : List (List EnemyS × ℝ × ℝ)),
      lifetimeHits hit frames ≤ 1 ∧ (hit = true → lifetimeHits hit frames = 0)) := by
  refine ⟨?_, ?_, ?_, ?_, ?_⟩
  · intro es b h
    simp only [bulletStep]
    rw [if_pos h]
  · intro es b
    simp only [bulletStep]
    split
    · exact Or.inl rfl
    · cases hidx : firstHitIdx es b.pos.1 b.pos.2 with
      | none =>
        exact Or.inl rfl
      | some i =>
        have hi := firstHitIdx_lt hidx
        refine Or.inr ⟨i, hi, ?_, rfl⟩
        have hgd : es.getD i default = es.get ⟨i, hi⟩ :=
          List.getD_eq_getElem es default hi
        rw [← hgd]
  · intro es b
    simp only [bulletStep, bulletFired]
    by_cases hb : b.hit
    · rw [if_pos hb, hb]
      simp
    · rw [if_neg hb]
      rw [Bool.not_eq_true] at hb
      rw [hb]
      cases hidx : firstHitIdx es b.pos.1 b.pos.2 with
      | none => simp [hb]
      | some i => simp [hb]
  · intro dt b b' hkin hb
    simp only [bulletKinematics] at hkin
    rw [if_neg (by simp [hb])] at hkin
    split at hkin
    · cases hkin
    · cases hkin
      exact hb
  · intro hit frames
    induction frames generalizing hit with
    | nil => simp [lifetimeHits]
    | cons f rest ih =>
      obtain ⟨es, px, py⟩ := f
      constructor
      · cases hit with
        | true =>
          simp only [lifetimeHits, bulletFired]
          simp only [Bool.not_true, Bool.false_and, Bool.true_or]
          have h0 := (ih true).2 rfl
          simp [h0]
        | false =>
          simp only [lifetimeHits]
          cases hf : bulletFired es px py false with
          | false =>
            simp only [Bool.false_or]
            have := (ih false).1
            simp
            omega
          | true =>
            simp only [Bool.false_or]
            have h0 := (ih true).2 rfl
            simp [h0]
      · intro h
        subst h
        simp only [lifetimeHits, bulletFired, Bool.not_true, Bool.false_and,
          Bool.true_or]
        have h0 := (ih true).2 rfl
        simp [h0]

/-- C7 witness: a concrete already-hit projectile is skipped by the scan
and left unchanged. -/
theorem projectile_single_hit_witness :
    bulletStep []
        { pos := (0, 0), vel := (0, 0), r := 5, hit := true, t_hit := 0,
          alpha := 255 } =
      ([], { pos := (0, 0), vel := (0, 0), r := 5, hit := true, t_hit := 0,
             alpha := 255 }) :=
  projectile_single_hit.1 []
    { pos := (0, 0), vel := (0, 0), r := 5, hit := true, t_hit := 0,
      alpha := 255 } rfl
